import Mathlib

/-!
Verification of the report-tree transformer of QBO-ToProcess
(src/services/qbo_service.py): the Chart-of-Accounts merge
(inject_missing_accounts and its helpers) and the report flattener
(parse_report_to_rows / process_row_data), embedded shallowly.

Modelling conventions:
* a JSON cell {value?, id?} becomes `Cell` with two `Option String` fields;
* a report row dict becomes the nested inductive `Row`; the `Header`/`Summary`
  wrappers collapse to their effective `ColData` lists (an absent `Header`,
  an empty `Header` dict and a `Header` with empty `ColData` are
  behaviourally identical in every read of the source, and likewise for
  `Summary`), while `Rows` keeps an `Option` because
  `"Rows" not in row` (promotion trigger) differs from an empty row list;
* Python string `.lower()` becomes `Char.toLower` mapping (the inputs of
  interest are ASCII), `in` on strings becomes infix search on char lists;
* Python's stable `list.sort(key=name)` becomes an insertion sort that is
  stable for equal keys;
* the recursion of `_inject_into_rows` into account children is not
  structurally decreasing (and the Python original diverges on cyclic
  parent chains), so the embedding adds explicit fuel; the top-level entry
  point supplies fuel `accounts.length + 1`, which covers every terminating
  run of the original.
-/

/-- A report cell: `value` and `id` keys, each possibly absent. -/
structure Cell where
  value : Option String
  id : Option String
deriving Repr, DecidableEq

/-- A report row/section node.  `type_` is the `"type"` key, `group` the
`"group"` key (`""` when absent), `header` and `summary` the effective
`Header.ColData` / `Summary.ColData` lists, `colData` the `ColData` list,
`subRows` the `Rows.Row` list (`none` when the `"Rows"` key is absent). -/
inductive Row where
  | mk (type_ : Option String) (group : String) (header : List Cell)
      (colData : List Cell) (subRows : Option (List Row)) (summary : List Cell)
deriving Repr

/-- The `"type"` field of a row. -/
def Row.type_ : Row → Option String
  | .mk t _ _ _ _ _ => t

/-- The `"group"` field of a row (empty string when absent). -/
def Row.group : Row → String
  | .mk _ g _ _ _ _ => g

/-- The effective `Header.ColData` list of a row. -/
def Row.header : Row → List Cell
  | .mk _ _ h _ _ _ => h

/-- The `ColData` list of a row. -/
def Row.colData : Row → List Cell
  | .mk _ _ _ c _ _ => c

/-- The `Rows.Row` list of a row, `none` when the `Rows` key is absent. -/
def Row.subRows : Row → Option (List Row)
  | .mk _ _ _ _ s _ => s

/-- The effective `Summary.ColData` list of a row. -/
def Row.summary : Row → List Cell
  | .mk _ _ _ _ _ s => s

/-- Replace the `Rows.Row` list of a row, keeping every other field. -/
def Row.setSubRows : Row → Option (List Row) → Row
  | .mk t g h c _ s, v => .mk t g h c v s

/-- A report: the `Columns.Column[].ColTitle` titles and the top `Rows.Row`
list (`none` when the `Rows` key is absent). -/
structure Report where
  columns : List String
  rows : Option (List Row)
deriving Repr

/-- A Chart-of-Accounts account: `Id`, `Name`, `AccountType`, `SubAccount`,
`ParentRef.value` (absent when there is no `ParentRef` or no `value`). -/
structure Account where
  id : String
  name : String
  accountType : String
  subAccount : Bool
  parentRef : Option String
deriving Repr, DecidableEq

/-- Python `str.lower()` restricted to ASCII letters, on char lists. -/
def lowerChars (cs : List Char) : List Char := cs.map Char.toLower

/-- Python `<` on strings: lexicographic comparison by code point. -/
def charsLt : List Char → List Char → Bool
  | [], [] => false
  | [], _ :: _ => true
  | _ :: _, [] => false
  | a :: as, b :: bs => a < b || (a == b && charsLt as bs)

/-- Python `a < b` on raw strings (used by `sort(key=lambda a: a["Name"])`). -/
def pyStrLt (a b : String) : Bool := charsLt a.toList b.toList

/-- Python `a.lower() < b.lower()` (used by `_insert_sorted`). -/
def ciStrLt (a b : String) : Bool :=
  charsLt (lowerChars a.toList) (lowerChars b.toList)

/-- Does the second char list start with the first? -/
def charsStartWith : List Char → List Char → Bool
  | [], _ => true
  | _ :: _, [] => false
  | a :: as, b :: bs => a == b && charsStartWith as bs

/-- Does the second char list contain the first as a contiguous run? -/
def charsHaveRun (needle : List Char) : List Char → Bool
  | [] => needle.isEmpty
  | c :: rest => charsStartWith needle (c :: rest) || charsHaveRun needle rest

/-- Python `"total" in s.lower()`. -/
def containsTotal (s : String) : Bool :=
  charsHaveRun (String.toList "total") (lowerChars (String.toList s))

/-- `c.get("value", "")`. -/
def cellValue (c : Cell) : String := c.value.getD ""

/-- First cell's `value` of a cell list, `""` when the list is empty. -/
def firstValue : List Cell → String
  | [] => ""
  | c :: _ => cellValue c

/-- First cell's `id` of a cell list, `none` when the list is empty. -/
def firstId : List Cell → Option String
  | [] => none
  | c :: _ => c.id

/-- First cell's `id` when the list is nonempty and the id is present and
truthy (nonempty), as tested by `_collect_present_ids`. -/
def firstTruthyId (cs : List Cell) : Option String :=
  match firstId cs with
  | some s => if s = "" then none else some s
  | none => none

/-! ## Flattening: `parse_report_to_rows` / `process_row_data` -/

/-- Is this node's own `ColData` row a total row (`is_total_row` in
`process_row_data`)? -/
def isTotalColData (colData : List Cell) : Bool :=
  !colData.isEmpty && containsTotal (firstValue colData)

mutual
/-- `process_row_data(row_data)`: the rows a node and its subtree emit. -/
def processRowData (rowMax : String) (r : Row) : List (List String) :=
  match r with
  | .mk _ _ header colData subRows summary =>
    let isTotal := isTotalColData colData
    if rowMax == "-T" && isTotal then []
    else
      let res1 : List (List String) :=
        if header.isEmpty then [] else [header.map cellValue]
      let res2 := res1 ++ (if colData.isEmpty then [] else [colData.map cellValue])
      if rowMax == "T" && isTotal then res2
      else
        let res3 := res2 ++ processSubRows rowMax subRows
        if summary.isEmpty then res3
        else
          let sv := summary.map cellValue
          if containsTotal (sv.headD "") then
            if rowMax == "-T" then res3 else res3 ++ [sv]
          else res3 ++ [sv]

/-- The rows emitted by a list of sibling nodes, in order. -/
def processRowList (rowMax : String) (rs : List Row) : List (List String) :=
  match rs with
  | [] => []
  | r :: rest => processRowData rowMax r ++ processRowList rowMax rest

/-- The rows emitted by an optional sub-row list (absent `Rows` emits
nothing). -/
def processSubRows (rowMax : String) : Option (List Row) → List (List String)
  | some l => processRowList rowMax l
  | none => []
end

/-- Index of the first header whose title contains "total"
(case-insensitive): the `total_col_idx` search loop of
`parse_report_to_rows`. -/
def findTotalIdx : List String → Option Nat
  | [] => none
  | h :: rest =>
    if containsTotal h then some 0 else (findTotalIdx rest).map (· + 1)

/-- `parse_report_to_rows(report_data, row_max, col_max)`; returns
`(data_rows, headers)`.  A `none` report is a falsy `report_data`. -/
def parseReportToRows (rd : Option Report) (rowMax colMax : String) :
    List (List String) × List String :=
  match rd with
  | none => ([], [])
  | some r =>
    let headers := r.columns
    let rows := processRowList rowMax (r.rows.getD [])
    if (colMax == "-T" || colMax == "T") && !headers.isEmpty then
      match findTotalIdx headers with
      | none => (rows, headers)
      | some k =>
        if colMax == "-T" then (rows.map (fun row => row.take k), headers.take k)
        else (rows.map (fun row => row.take (k + 1)), headers.take (k + 1))
    else (rows, headers)

/-! ## Chart-of-Accounts indexing -/

/-- `SECTION_ACCOUNT_TYPES`: report section group → QBO account types. -/
def sectionAccountTypes (g : String) : Option (List String) :=
  if g == "Income" then some ["Income"]
  else if g == "CostOfGoodsSold" then some ["Cost of Goods Sold"]
  else if g == "Expenses" then some ["Expense"]
  else if g == "OtherIncome" then some ["Other Income"]
  else if g == "OtherExpenses" then some ["Other Expense"]
  else if g == "BankAccounts" then some ["Bank"]
  else if g == "AR" then some ["Accounts Receivable"]
  else if g == "OtherCurrentAssets" then some ["Other Current Asset"]
  else if g == "FixedAssets" then some ["Fixed Asset"]
  else if g == "OtherAssets" then some ["Other Asset"]
  else if g == "AP" then some ["Accounts Payable"]
  else if g == "CreditCards" then some ["Credit Card"]
  else if g == "OtherCurrentLiabilities" then some ["Other Current Liability"]
  else if g == "LongTermLiabilities" then some ["Long Term Liability"]
  else if g == "Equity" then some ["Equity"]
  else none

/-- Insert an account into a name-sorted list, after all entries whose name
is `≤` the new name (a stable ascending insertion, matching Python's stable
`sort(key=lambda a: a["Name"])` when folded from the right). -/
def insName (a : Account) : List Account → List Account
  | [] => [a]
  | b :: l => if pyStrLt b.name a.name then b :: insName a l else a :: b :: l

/-- Python's stable `accounts.sort(key=lambda a: a["Name"])`. -/
def pySortByName (l : List Account) : List Account := l.foldr insName []

/-- `parent_id` as computed when building `children_map`: `ParentRef.value`
when `SubAccount` is truthy, else `None`. -/
def effParent (a : Account) : Option String :=
  if a.subAccount then a.parentRef else none

/-- `children_map[pid]`: the accounts whose truthy parent id resolves inside
the account list and equals `pid`, sorted by raw name (`_inject_into_rows`
reads it with `children_map.get(acct_id, [])`). -/
def childrenOf (coa : List Account) (pid : String) : List Account :=
  let ids := coa.map Account.id
  pySortByName (coa.filter (fun a =>
    match effParent a with
    | some p => !(p == "") && ids.contains p && p == pid
    | none => false))

/-- The per-section `top_level` list of `_process_sections`: accounts of the
section whose parent is absent, falsy, or outside the section's id set,
sorted by raw name. -/
def topLevelOf (sa : List Account) : List Account :=
  let ids := sa.map Account.id
  pySortByName (sa.filter (fun a =>
    match effParent a with
    | some p => p == "" || !ids.contains p
    | none => true))

/-! ## Present-id collection -/

mutual
/-- Ids contributed by one row in `_collect_present_ids`: the truthy first
`ColData` id, then the truthy first `Header` id, then the sub-rows. -/
def collectRow (r : Row) : List String :=
  match r with
  | .mk _ _ header colData subRows _ =>
    (firstTruthyId colData).toList ++ (firstTruthyId header).toList ++
      collectSub subRows

/-- `_collect_present_ids(rows)` as the list of ids found, in scan order
(only membership is ever used of the Python set). -/
def collectPresentIds (rows : List Row) : List String :=
  match rows with
  | [] => []
  | r :: rest => collectRow r ++ collectPresentIds rest

/-- `collectPresentIds` on an optional sub-row list. -/
def collectSub : Option (List Row) → List String
  | some l => collectPresentIds l
  | none => []
end

/-! ## Injection: `_inject_into_rows` and helpers -/

/-- `_make_zero_coldata(name, account_id, num_cols)`. -/
def makeZeroColData (name idStr : String) (nc : Nat) : List Cell :=
  ⟨some name, some idStr⟩ :: List.replicate (nc - 1) ⟨some "", none⟩

/-- `_get_row_name(row)`. -/
def getRowName (r : Row) : String :=
  match r.header with
  | c :: _ => cellValue c
  | [] =>
    match r.colData with
    | c :: _ => cellValue c
    | [] => ""

/-- `_insert_sorted(rows, new_row, name)`: insert before the first existing
row whose lower-cased name is strictly greater, else append. -/
def insertSorted (rows : List Row) (newRow : Row) (name : String) : List Row :=
  match rows with
  | [] => [newRow]
  | r :: rest =>
    if ciStrLt name (getRowName r) then newRow :: r :: rest
    else r :: insertSorted rest newRow name

/-- Does a row carry `acct_id` on its header's or `ColData`'s first cell, as
tested by the search loop of `_inject_into_rows`? -/
def rowMatches (acctId : String) (r : Row) : Bool :=
  firstId r.header == some acctId || firstId r.colData == some acctId

/-- Replace the first row satisfying `p` by its image under `f` (the Python
loop mutates the found row and breaks; no match means no change). -/
def updateFirstMatch (p : Row → Bool) (f : Row → Row) : List Row → List Row
  | [] => []
  | r :: rest => if p r then f r :: rest else r :: updateFirstMatch p f rest

/-- Promotion of a found row without a `Rows` key: `Header` is overwritten
with the popped `ColData`, an empty `Rows` container, a synthesized
"Total name" summary, and `type` becomes `"Section"`. -/
def promoteRow (r : Row) (name : String) (nc : Nat) : Row :=
  .mk (some "Section") r.group r.colData [] (some [])
    (makeZeroColData ("Total " ++ name) "" nc)

/-- The new `Data` row injected for a missing leaf account. -/
def mkDataRow (a : Account) (nc : Nat) : Row :=
  .mk (some "Data") "" [] (makeZeroColData a.name a.id nc) none []

/-- The new `Section` row injected for a missing parent account, with the
already-injected children list. -/
def mkSectionRow (a : Account) (nc : Nat) (injected : List Row) : Row :=
  .mk (some "Section") "" (makeZeroColData a.name a.id nc) []
    (some injected) (makeZeroColData ("Total " ++ a.name) "" nc)

/-- The update applied to the row found for a present account: promote it
when it has no `Rows` container, then inject the account's children into
its sub-rows through `recur`. -/
def updateMatched (nc : Nat) (name : String)
    (recur : List Row → List Account → List Row)
    (children : List Account) (r : Row) : Row :=
  let r1 := if r.subRows.isNone then promoteRow r name nc else r
  Row.setSubRows r1 (some (recur (r1.subRows.getD []) children))

/-- One iteration of the `for acct in coa_accounts` loop of
`_inject_into_rows`, parameterized by the recursive call used for nested
levels. -/
def injectStep (coa : List Account) (nc : Nat) (present : List String)
    (recur : List Row → List Account → List Row)
    (rows : List Row) (acct : Account) : List Row :=
  let children := childrenOf coa acct.id
  if present.contains acct.id then
    if children.isEmpty then rows
    else
      updateFirstMatch (rowMatches acct.id)
        (updateMatched nc acct.name recur children) rows
  else
    if children.isEmpty then insertSorted rows (mkDataRow acct nc) acct.name
    else insertSorted rows (mkSectionRow acct nc (recur [] children)) acct.name

/-- `_inject_into_rows(existing_rows, coa_accounts, ...)`, with fuel for the
descent into account children (the Python original diverges on cyclic
parent chains; fuel `0` performs no injection). -/
def injectIntoRows (coa : List Account) (nc : Nat) (present : List String) :
    Nat → List Row → List Account → List Row
  | 0, rows, _ => rows
  | n + 1, rows, accts =>
    accts.foldl (injectStep coa nc present (injectIntoRows coa nc present n)) rows

/-! ## Section walk: `_process_sections` -/

/-- The matched-section branch of `_process_sections`: filter the accounts
of the mapped types and, when nonempty, inject their top-level members into
the section's (possibly freshly created) row container. -/
def injectMatched (coa : List Account) (present : List String)
    (nc fuel : Nat) (s : Row) (types : List String) : Row :=
  let sa := coa.filter (fun a => types.contains a.accountType)
  if sa.isEmpty then s
  else
    Row.setSubRows s
      (some (injectIntoRows coa nc present fuel (s.subRows.getD [])
        (topLevelOf sa)))

mutual
/-- `_process_sections` acting on one row. -/
def processSectionRow (coa : List Account) (present : List String)
    (nc fuel : Nat) (s : Row) : Row :=
  match s with
  | .mk t g h c sub sm =>
    (sectionAccountTypes g).elim
      (Row.mk t g h c (processSubSections coa present nc fuel sub) sm)
      (fun types =>
        injectMatched coa present nc fuel (Row.mk t g h c sub sm) types)

/-- `_process_sections` on an optional sub-row list (an absent container is
left absent; the Python loop reads it with defaults). -/
def processSubSections (coa : List Account) (present : List String)
    (nc fuel : Nat) : Option (List Row) → Option (List Row)
  | some l => some (processSections coa present nc fuel l)
  | none => none

/-- `_process_sections(rows, ...)`. -/
def processSections (coa : List Account) (present : List String)
    (nc fuel : Nat) (rows : List Row) : List Row :=
  match rows with
  | [] => []
  | s :: rest =>
    processSectionRow coa present nc fuel s ::
      processSections coa present nc fuel rest
end

/-! ## The merge: `inject_missing_accounts` -/

/-- `inject_missing_accounts(report_data, accounts)`.  A `none` report is a
falsy `report_data`; the fuel `accounts.length + 1` covers every
terminating descent of the original. -/
def injectMissingAccounts (rd : Option Report) (accounts : List Account) :
    Option Report :=
  match rd with
  | none => none
  | some r =>
    if accounts.isEmpty then some r
    else if r.columns.length == 0 then some r
    else
      let present := collectPresentIds (r.rows.getD [])
      match r.rows with
      | none => some r
      | some rows =>
        some ⟨r.columns,
          some (processSections accounts present r.columns.length
            (accounts.length + 1) rows)⟩

/-! ## Basic facts about the guards of the merge -/

/-- Auxiliary: the first summary value equals the head of the mapped values. -/
theorem headD_map_cellValue (cs : List Cell) :
    (cs.map cellValue).headD "" = firstValue cs := by
  cases cs <;> rfl

/-- C8: `inject_missing_accounts` returns its input unchanged when the
report is absent (falsy), when the account list is empty, or when the
report's Column sequence has zero columns; no injection occurs. -/
theorem merge_noop_on_empty_inputs (rd : Option Report) (accounts : List Account)
    (h : rd = none ∨ accounts = [] ∨ ∀ r, rd = some r → r.columns.length = 0) :
    injectMissingAccounts rd accounts = rd := by
  rcases rd with _ | r
  · rfl
  · rcases h with h | h | h
    · exact absurd h (by simp)
    · subst h; rfl
    · have hc : r.columns.length = 0 := h r rfl
      simp [injectMissingAccounts, hc]

/-- Witness for `merge_noop_on_empty_inputs` at a concrete report with no
columns and a nonempty account list. -/
theorem merge_noop_on_empty_inputs_witness :
    injectMissingAccounts (some ⟨[], none⟩) [⟨"1", "a", "Bank", false, none⟩]
      = some ⟨[], none⟩ :=
  merge_noop_on_empty_inputs (some ⟨[], none⟩) [⟨"1", "a", "Bank", false, none⟩]
    (Or.inr (Or.inr (fun r hr => by cases hr; rfl)))

/-- C10: the merge only rebuilds the `Rows` contents: for every report it
returns a report with exactly the input's `Columns` sequence (the in-place
mutation of the original is modelled by this frame condition). -/
theorem merge_preserves_columns (r : Report) (accounts : List Account) :
    ∃ rws, injectMissingAccounts (some r) accounts = some ⟨r.columns, rws⟩ := by
  obtain ⟨cols, rws⟩ := r
  by_cases ha : accounts.isEmpty
  · exact ⟨rws, by simp [injectMissingAccounts, ha]⟩
  · by_cases hc : cols.length == 0
    · exact ⟨rws, by simp [injectMissingAccounts, ha, hc]⟩
    · rcases rws with _ | rows
      · exact ⟨none, by simp [injectMissingAccounts, ha, hc]⟩
      · exact ⟨some (processSections accounts (collectPresentIds rows)
          cols.length (accounts.length + 1) rows),
          by simp [injectMissingAccounts, ha, hc]⟩

/-- C7: under `row_max = "T"`, a node whose summary is an emitted total row
contributes that summary as its last row, and the rows of its siblings are
still processed and appended unchanged: the early return ends only that
node's own call. -/
theorem total_summary_ends_only_own_call (r : Row) (siblings : List Row)
    (hsum : r.summary.isEmpty = false)
    (htot : containsTotal (firstValue r.summary) = true)
    (hnt : isTotalColData r.colData = false) :
    (∃ pre, processRowData "T" r = pre ++ [r.summary.map cellValue]) ∧
      processRowList "T" (r :: siblings) =
        processRowData "T" r ++ processRowList "T" siblings := by
  constructor
  · rcases r with ⟨t, g, header, colData, subRows, summary⟩
    simp only [Row.summary] at hsum htot
    simp only [Row.colData] at hnt
    rcases subRows with _ | l
    · refine ⟨(if header.isEmpty then [] else [header.map cellValue]) ++
        (if colData.isEmpty then [] else [colData.map cellValue]), ?_⟩
      simp [processRowData, processSubRows, Row.summary, hnt, hsum,
        headD_map_cellValue, htot, List.append_assoc]
    · refine ⟨(if header.isEmpty then [] else [header.map cellValue]) ++
        (if colData.isEmpty then [] else [colData.map cellValue]) ++
        processRowList "T" l, ?_⟩
      simp [processRowData, processSubRows, Row.summary, hnt, hsum,
        headD_map_cellValue, htot, List.append_assoc]
  · rfl

/-- Witness for `total_summary_ends_only_own_call`: a section with a total
summary followed by a sibling data row. -/
theorem total_summary_ends_only_own_call_witness :
    (∃ pre, processRowData "T"
        (.mk none "" [⟨some "S", none⟩] [] (some []) [⟨some "Total S", none⟩])
        = pre ++ [[cellValue ⟨some "Total S", none⟩]]) ∧
      processRowList "T"
        [.mk none "" [⟨some "S", none⟩] [] (some []) [⟨some "Total S", none⟩],
         .mk none "" [] [⟨some "b", none⟩] none []] =
        processRowData "T"
          (.mk none "" [⟨some "S", none⟩] [] (some []) [⟨some "Total S", none⟩])
          ++ processRowList "T" [.mk none "" [] [⟨some "b", none⟩] none []] :=
  total_summary_ends_only_own_call
    (.mk none "" [⟨some "S", none⟩] [] (some []) [⟨some "Total S", none⟩])
    [.mk none "" [] [⟨some "b", none⟩] none []]
    rfl (by decide) rfl

/-! ## C6: column truncation -/

/-- The index found by `findTotalIdx` is the first header containing
"total". -/
theorem findTotalIdx_spec (hs : List String) (k : Nat)
    (h : findTotalIdx hs = some k) :
    containsTotal (hs.getD k "") = true ∧
      ∀ j, j < k → containsTotal (hs.getD j "") = false := by
  induction hs generalizing k with
  | nil => simp [findTotalIdx] at h
  | cons a rest ih =>
    by_cases ha : containsTotal a
    · simp [findTotalIdx, ha] at h
      subst h
      exact ⟨ha, fun j hj => absurd hj (Nat.not_lt_zero j)⟩
    · simp [findTotalIdx, ha] at h
      obtain ⟨k', hk', rfl⟩ := h
      obtain ⟨h1, h2⟩ := ih k' hk'
      refine ⟨by simpa using h1, ?_⟩
      intro j hj
      cases j with
      | zero => simpa using ha
      | succ j' => simpa using h2 j' (by omega)

/-- C6 (amended): column truncation locates the first header containing
"total"; `"-T"` keeps indices `[0,k)`, `"T"` keeps `[0,k]`, no match (or a
policy other than `"T"`/`"-T"`) is a no-op; rows are neither removed nor
reordered — each row is replaced by its prefix up to the cutoff (a row
shorter than the cutoff keeps its own length). -/
theorem column_truncation_behavior (r : Report) (rowMax colMax : String) :
    ((findTotalIdx r.columns = none ∨ (colMax ≠ "-T" ∧ colMax ≠ "T")) →
      parseReportToRows (some r) rowMax colMax =
        (processRowList rowMax (r.rows.getD []), r.columns)) ∧
    (∀ k, findTotalIdx r.columns = some k →
      containsTotal (r.columns.getD k "") = true ∧
      (∀ j, j < k → containsTotal (r.columns.getD j "") = false) ∧
      (colMax = "-T" → parseReportToRows (some r) rowMax colMax =
        ((processRowList rowMax (r.rows.getD [])).map (fun row => row.take k),
          r.columns.take k)) ∧
      (colMax = "T" → parseReportToRows (some r) rowMax colMax =
        ((processRowList rowMax (r.rows.getD [])).map
            (fun row => row.take (k + 1)),
          r.columns.take (k + 1)))) := by
  obtain ⟨cols, rws⟩ := r
  constructor
  · rintro (hnone | ⟨h1, h2⟩)
    · simp only [parseReportToRows]
      split
      · simp only at hnone
        simp [hnone]
      · rfl
    · have e1 : (colMax == "-T") = false := beq_eq_false_iff_ne.mpr h1
      have e2 : (colMax == "T") = false := beq_eq_false_iff_ne.mpr h2
      simp [parseReportToRows, e1, e2]
  · intro k hk
    simp only at hk
    obtain ⟨hh1, hh2⟩ := findTotalIdx_spec cols k hk
    refine ⟨hh1, hh2, ?_, ?_⟩
    · rintro rfl
      cases cols with
      | nil => simp [findTotalIdx] at hk
      | cons c cs => simp [parseReportToRows, hk]
    · rintro rfl
      cases cols with
      | nil => simp [findTotalIdx] at hk
      | cons c cs => simp [parseReportToRows, hk]

/-- Counterexample to C6 as stated: after `"T"` truncation at cutoff 2, a
two-cell row and a one-cell row do not end at the same length. -/
theorem column_truncation_same_length_cex :
    ¬ (∀ row1 ∈ (parseReportToRows (some ⟨["A", "Total"],
        some [.mk none "" [] [⟨some "a", none⟩, ⟨some "1", none⟩] none [],
              .mk none "" [] [⟨some "x", none⟩] none []]⟩) "*" "T").1,
       ∀ row2 ∈ (parseReportToRows (some ⟨["A", "Total"],
        some [.mk none "" [] [⟨some "a", none⟩, ⟨some "1", none⟩] none [],
              .mk none "" [] [⟨some "x", none⟩] none []]⟩) "*" "T").1,
         row1.length = row2.length) := by decide

/-- Witness for `column_truncation_behavior`: concrete `"-T"` truncation at
the "Total" column. -/
theorem column_truncation_behavior_witness :
    parseReportToRows (some ⟨["A", "Total"],
        some [.mk none "" [] [⟨some "a", none⟩, ⟨some "1", none⟩] none []]⟩)
      "*" "-T" = ([["a"]], ["A"]) := by
  have h := (column_truncation_behavior
    ⟨["A", "Total"],
      some [.mk none "" [] [⟨some "a", none⟩, ⟨some "1", none⟩] none []]⟩
    "*" "-T").2 1 (by decide)
  rw [h.2.2.1 rfl]
  decide

/-! ## C3: `row_max = "-T"` truncation -/

mutual
/-- No node of this row's subtree has a header whose first cell's value
contains "total" (case-insensitive). -/
def headersTotalFreeRow (r : Row) : Bool :=
  match r with
  | .mk _ _ header _ subRows _ =>
    !containsTotal (firstValue header) && headersTotalFreeSub subRows

/-- `headersTotalFree` on an optional sub-row list. -/
def headersTotalFreeSub : Option (List Row) → Bool
  | some l => headersTotalFree l
  | none => true

/-- `headersTotalFreeRow` over a list of rows. -/
def headersTotalFree (rs : List Row) : Bool :=
  match rs with
  | [] => true
  | r :: rest => headersTotalFreeRow r && headersTotalFree rest
end

/-- Taking a prefix of a row cannot introduce "total" into its first cell. -/
theorem containsTotal_headD_take (row : List String) (k : Nat)
    (h : containsTotal (row.headD "") = false) :
    containsTotal ((row.take k).headD "") = false := by
  cases row with
  | nil => cases k <;> simpa using h
  | cons a l =>
    cases k with
    | zero =>
      have he : ((a :: l).take 0).headD "" = "" := rfl
      rw [he]
      decide
    | succ k' => simpa using h

/-- The rows emitted by a non-total node under `"-T"`, as one
concatenation. -/
theorem processRowDataNT_eq (t : Option String) (g : String)
    (header colData : List Cell) (subRows : Option (List Row))
    (summary : List Cell) (htot : isTotalColData colData = false) :
    processRowData "-T" (.mk t g header colData subRows summary) =
      (if header.isEmpty then [] else [header.map cellValue]) ++
      ((if colData.isEmpty then [] else [colData.map cellValue]) ++
      (processSubRows "-T" subRows ++
      (if summary.isEmpty then []
       else if containsTotal (firstValue summary) then []
       else [summary.map cellValue]))) := by
  rcases subRows with _ | l
  · rcases summary with _ | ⟨c3, cs3⟩
    · simp [processRowData, processSubRows, htot, List.append_assoc]
    · by_cases hsv : containsTotal (cellValue c3)
      · simp [processRowData, processSubRows, htot, firstValue, hsv,
          List.append_assoc]
      · simp [processRowData, processSubRows, htot, firstValue, hsv,
          List.append_assoc]
  · rcases summary with _ | ⟨c3, cs3⟩
    · simp [processRowData, processSubRows, htot, List.append_assoc]
    · by_cases hsv : containsTotal (cellValue c3)
      · simp [processRowData, processSubRows, htot, firstValue, hsv,
          List.append_assoc]
      · simp [processRowData, processSubRows, htot, firstValue, hsv,
          List.append_assoc]

/-- Unpacking `headersTotalFreeRow` (header component). -/
theorem headersTotalFreeRow_head (t : Option String) (g : String)
    (header colData : List Cell) (subRows : Option (List Row))
    (summary : List Cell)
    (h : headersTotalFreeRow (.mk t g header colData subRows summary) = true) :
    containsTotal (firstValue header) = false := by
  simp only [headersTotalFreeRow, Bool.and_eq_true, Bool.not_eq_eq_eq_not,
    Bool.not_true] at h
  exact h.1

/-- Unpacking `headersTotalFreeRow` (children component). -/
theorem headersTotalFreeRow_sub (t : Option String) (g : String)
    (header colData : List Cell) (l : List Row) (summary : List Cell)
    (h : headersTotalFreeRow (.mk t g header colData (some l) summary) = true) :
    headersTotalFree l = true := by
  simp only [headersTotalFreeRow, Bool.and_eq_true] at h
  exact h.2

mutual
/-- Under `"-T"`, a row emits no total-first rows provided its subtree's
headers are total-free. -/
theorem processRowData_total_free (r : Row)
    (hfree : headersTotalFreeRow r = true) :
    ∀ row ∈ processRowData "-T" r, containsTotal (row.headD "") = false := by
  match r with
  | .mk t g header colData subRows summary =>
    intro row hrow
    by_cases htot : isTotalColData colData
    · simp [processRowData, htot] at hrow
    · rw [processRowDataNT_eq t g header colData subRows summary
        (by simpa using htot)] at hrow
      rcases List.mem_append.mp hrow with h1 | hrow
      · rcases header with _ | ⟨c, cs⟩
        · simp at h1
        · simp at h1
          subst h1
          have hh := headersTotalFreeRow_head t g (c :: cs) colData subRows
            summary hfree
          simpa [headD_map_cellValue] using hh
      rcases List.mem_append.mp hrow with h2 | hrow
      · rcases colData with _ | ⟨c, cs⟩
        · simp at h2
        · simp at h2
          subst h2
          simpa [isTotalColData, firstValue] using htot
      rcases List.mem_append.mp hrow with h3 | h4
      · cases subRows with
        | none => simp [processSubRows] at h3
        | some l =>
          exact processRowList_total_free l
            (headersTotalFreeRow_sub t g header colData l summary hfree) row
            (by simpa [processSubRows] using h3)
      · rcases summary with _ | ⟨c3, cs3⟩
        · simp at h4
        · by_cases hsv : containsTotal (firstValue (c3 :: cs3))
          · simp [hsv] at h4
          · simp [hsv] at h4
            subst h4
            simpa [headD_map_cellValue] using hsv

/-- `processRowData_total_free` over a list of sibling rows. -/
theorem processRowList_total_free (rs : List Row)
    (hfree : headersTotalFree rs = true) :
    ∀ row ∈ processRowList "-T" rs, containsTotal (row.headD "") = false := by
  match rs with
  | [] => intro row hrow; simp [processRowList] at hrow
  | r :: rest =>
    simp only [headersTotalFree, Bool.and_eq_true] at hfree
    intro row hrow
    rcases List.mem_append.mp (by simpa [processRowList] using hrow) with h | h
    · exact processRowData_total_free r hfree.1 row h
    · exact processRowList_total_free rest hfree.2 row h
end

/-- The first component of the flattener either is the untruncated row list
or a uniform prefix map of it. -/
theorem parse_fst_cases (r : Report) (rm cm : String) :
    (parseReportToRows (some r) rm cm).1 = processRowList rm (r.rows.getD []) ∨
    ∃ k, (parseReportToRows (some r) rm cm).1 =
      (processRowList rm (r.rows.getD [])).map (fun row => row.take k) := by
  simp only [parseReportToRows]
  split
  · split
    · left; rfl
    · split
      · right; exact ⟨_, rfl⟩
      · right; exact ⟨_, rfl⟩
  · left; rfl

/-- C3 (amended): with `row_max = "-T"`, provided no node's header first
cell contains "total", no output row's first cell contains "total"; and a
node whose own `ColData` row is a total row contributes nothing, its whole
subtree included.  (The guard tests only `ColData`, so a header containing
"total" would be emitted — see the counterexample.) -/
theorem stop_before_total_rows (r : Report) (colMax : String)
    (hfree : headersTotalFree (r.rows.getD []) = true) :
    (∀ row ∈ (parseReportToRows (some r) "-T" colMax).1,
      containsTotal (row.headD "") = false) ∧
    ∀ node : Row, isTotalColData node.colData = true →
      processRowData "-T" node = [] := by
  constructor
  · have hbase := processRowList_total_free (r.rows.getD []) hfree
    intro row hrow
    rcases parse_fst_cases r "-T" colMax with h | ⟨k, h⟩
    · rw [h] at hrow
      exact hbase row hrow
    · rw [h] at hrow
      obtain ⟨row0, hrow0, rfl⟩ := List.mem_map.mp hrow
      exact containsTotal_headD_take row0 k (hbase row0 hrow0)
  · intro node htot
    match node with
    | .mk t g header colData subRows summary =>
      simp only [Row.colData] at htot
      simp [processRowData, htot]

/-- Counterexample to C3 as stated: a section whose header (not `ColData`)
says "Total Assets" survives `"-T"` flattening; the first-cell filter tests
only the node's own `ColData` row. -/
theorem stop_before_total_header_leak_cex :
    ∃ row ∈ (parseReportToRows (some ⟨["c"],
      some [.mk none "" [⟨some "Total Assets", none⟩] [] none []]⟩)
        "-T" "*").1,
      containsTotal (row.headD "") = true := by decide

/-- Witness for `stop_before_total_rows` on a concrete bank section. -/
theorem stop_before_total_rows_witness :
    (∀ row ∈ (parseReportToRows (some ⟨["c"],
        some [.mk (some "Section") "X" [⟨some "Bank", none⟩] []
          (some [.mk (some "Data") "" [] [⟨some "Checking", some "1"⟩] none []])
          [⟨some "Total Bank", none⟩]]⟩) "-T" "*").1,
      containsTotal (row.headD "") = false) ∧
    ∀ node : Row, isTotalColData node.colData = true →
      processRowData "-T" node = [] :=
  stop_before_total_rows ⟨["c"],
    some [.mk (some "Section") "X" [⟨some "Bank", none⟩] []
      (some [.mk (some "Data") "" [] [⟨some "Checking", some "1"⟩] none []])
      [⟨some "Total Bank", none⟩]]⟩ "*" (by decide)

/-! ## C9: defaulted reads of optional cell fields -/

/-- Replace a possibly missing `value` by its defaulted read; `id` is kept
(a missing id stays absent). -/
def normCell (c : Cell) : Cell := ⟨some (cellValue c), c.id⟩

mutual
/-- `normCell` applied to every cell of a row's subtree. -/
def normRow : Row → Row
  | .mk t g h c sub sm =>
    .mk t g (h.map normCell) (c.map normCell) (normSub sub) (sm.map normCell)

/-- `normRow` on an optional sub-row list. -/
def normSub : Option (List Row) → Option (List Row)
  | some l => some (normRows l)
  | none => none

/-- `normRow` over a list of rows. -/
def normRows : List Row → List Row
  | [] => []
  | r :: rest => normRow r :: normRows rest
end

/-- `normCell` does not change the defaulted value read. -/
theorem cellValue_normCell (c : Cell) : cellValue (normCell c) = cellValue c :=
  rfl

/-- Mapped defaulted values are unchanged by normalization. -/
theorem map_cellValue_normCell (cs : List Cell) :
    (cs.map normCell).map cellValue = cs.map cellValue := by
  rw [List.map_map]
  exact List.map_congr_left fun c _ => rfl

/-- `firstValue` is unchanged by normalization. -/
theorem firstValue_normCell (cs : List Cell) :
    firstValue (cs.map normCell) = firstValue cs := by
  cases cs <;> rfl

/-- `firstTruthyId` is unchanged by normalization. -/
theorem firstTruthyId_normCell (cs : List Cell) :
    firstTruthyId (cs.map normCell) = firstTruthyId cs := by
  cases cs <;> rfl

/-- `isTotalColData` is unchanged by normalization. -/
theorem isTotalColData_normCell (cs : List Cell) :
    isTotalColData (cs.map normCell) = isTotalColData cs := by
  cases cs <;> simp [isTotalColData, firstValue, cellValue_normCell]

/-- Composed form of `map_cellValue_normCell` for `simp`. -/
theorem map_cellValue_normCell_comp (cs : List Cell) :
    List.map (cellValue ∘ normCell) cs = List.map cellValue cs :=
  List.map_congr_left fun _ _ => rfl

/-- The defaulted first mapped value is unchanged by normalization. -/
theorem headq_cellValue_normCell (cs : List Cell) :
    (Option.map (cellValue ∘ normCell) cs.head?).getD "" =
      (Option.map cellValue cs.head?).getD "" := by
  cases cs <;> rfl

mutual
/-- Flattening reads every cell `value` through its default: normalizing
missing values to `""` does not change a row's emitted rows. -/
theorem processRowData_norm (rm : String) (r : Row) :
    processRowData rm (normRow r) = processRowData rm r := by
  match r with
  | .mk t g header colData subRows summary =>
    have hsub := processSubRows_norm rm subRows
    simp [processRowData, normRow, hsub, isTotalColData_normCell,
      map_cellValue_normCell_comp, headq_cellValue_normCell]

/-- `processRowData_norm` on an optional sub-row list. -/
theorem processSubRows_norm (rm : String) (sub : Option (List Row)) :
    processSubRows rm (normSub sub) = processSubRows rm sub := by
  match sub with
  | none => rfl
  | some l =>
    have h := processRowList_norm rm l
    simp [processSubRows, normSub, h]

/-- `processRowData_norm` over a list of rows. -/
theorem processRowList_norm (rm : String) (rs : List Row) :
    processRowList rm (normRows rs) = processRowList rm rs := by
  match rs with
  | [] => rfl
  | r :: rest =>
    have h1 := processRowData_norm rm r
    have h2 := processRowList_norm rm rest
    simp [processRowList, normRows, h1, h2]
end

mutual
/-- Present-id collection reads only ids; normalization changes nothing. -/
theorem collectRow_norm (r : Row) : collectRow (normRow r) = collectRow r := by
  match r with
  | .mk t g header colData subRows summary =>
    have hsub := collectSub_norm subRows
    simp [collectRow, normRow, hsub, firstTruthyId_normCell]

/-- `collectRow_norm` on an optional sub-row list. -/
theorem collectSub_norm (sub : Option (List Row)) :
    collectSub (normSub sub) = collectSub sub := by
  match sub with
  | none => rfl
  | some l =>
    have h := collectPresentIds_norm l
    simp [collectSub, normSub, h]

/-- `collectRow_norm` over a list of rows. -/
theorem collectPresentIds_norm (rs : List Row) :
    collectPresentIds (normRows rs) = collectPresentIds rs := by
  match rs with
  | [] => rfl
  | r :: rest =>
    have h1 := collectRow_norm r
    have h2 := collectPresentIds_norm rest
    simp [collectPresentIds, normRows, h1, h2]
end

/-- A report with all cell values defaulted. -/
def normReport (r : Report) : Report := ⟨r.columns, normSub r.rows⟩

/-- C9: every cell read of the flattener, of present-id collection and of
the row-name helper goes through a defined default: a missing `value`
behaves exactly as `""` and a missing `id` as an absent id, and (the
functions being total) no error is possible on such cells. -/
theorem optional_cell_reads_defaulted (rd : Report) (rm cm : String) :
    parseReportToRows (some (normReport rd)) rm cm =
      parseReportToRows (some rd) rm cm ∧
    collectPresentIds (normRows (rd.rows.getD [])) =
      collectPresentIds (rd.rows.getD []) ∧
    ∀ r : Row, getRowName (normRow r) = getRowName r := by
  refine ⟨?_, collectPresentIds_norm _, ?_⟩
  · obtain ⟨cols, rws⟩ := rd
    have hrows : (normSub rws).getD [] = normRows (rws.getD []) := by
      cases rws <;> rfl
    simp [parseReportToRows, normReport, hrows, processRowList_norm]
  · intro r
    match r with
    | .mk t g header colData subRows summary =>
      rcases header with _ | ⟨c, cs⟩ <;> rcases colData with _ | ⟨c2, cs2⟩ <;>
        simp [getRowName, normRow, Row.header, Row.colData, cellValue, normCell]

/-! ## C2: ordering of buckets and of children lists -/

/-- Adjacent-pairs ascending order of a name list under a strict
comparison: no later name is strictly below its predecessor. -/
def namesSortedBy (lt : String → String → Bool) : List String → Bool
  | [] => true
  | [_] => true
  | a :: b :: t => !lt b a && namesSortedBy lt (b :: t)

/-- `charsLt` is asymmetric. -/
theorem charsLt_asymm : ∀ x y : List Char, charsLt x y = true →
    charsLt y x = false := by
  intro x
  induction x with
  | nil => intro y h; cases y <;> simp_all [charsLt]
  | cons a as ih =>
    intro y h
    cases y with
    | nil => simp [charsLt] at h
    | cons b bs =>
      rw [← Bool.not_eq_true]
      intro hcon
      simp only [charsLt, Bool.or_eq_true, Bool.and_eq_true,
        decide_eq_true_eq, beq_iff_eq] at h hcon
      rcases h with h | ⟨rfl, h⟩ <;> rcases hcon with hc | ⟨he, hc⟩
      · exact absurd hc (lt_asymm h)
      · exact absurd (he ▸ h) (lt_irrefl _)
      · exact absurd hc (lt_irrefl _)
      · exact absurd hc (by simp [ih bs h])

/-- `pyStrLt` is asymmetric. -/
theorem pyStrLt_asymm (a b : String) (h : pyStrLt a b = true) :
    pyStrLt b a = false :=
  charsLt_asymm _ _ h

/-- `ciStrLt` is asymmetric. -/
theorem ciStrLt_asymm (a b : String) (h : ciStrLt a b = true) :
    ciStrLt b a = false :=
  charsLt_asymm _ _ h

/-- `insName` keeps a name-sorted account list name-sorted. -/
theorem insName_sorted (a : Account) (l : List Account)
    (h : namesSortedBy pyStrLt (l.map Account.name) = true) :
    namesSortedBy pyStrLt ((insName a l).map Account.name) = true := by
  induction l with
  | nil => simp [insName, namesSortedBy]
  | cons b t ih =>
    by_cases hba : pyStrLt b.name a.name
    · have hs : namesSortedBy pyStrLt (t.map Account.name) = true := by
        cases t with
        | nil => rfl
        | cons c t' => exact (Bool.and_eq_true .. |>.mp h).2
      have hrec := ih hs
      simp only [insName, hba, if_true, List.map_cons]
      cases ht : insName a t with
      | nil => simp [namesSortedBy]
      | cons c t' =>
        rw [ht] at hrec
        have hhead : pyStrLt (c.name) (b.name) = false := by
          cases t with
          | nil =>
            simp [insName] at ht
            obtain ⟨rfl, rfl⟩ := ht
            exact pyStrLt_asymm _ _ hba
          | cons d t'' =>
            by_cases hda : pyStrLt d.name a.name
            · simp [insName, hda] at ht
              obtain ⟨rfl, _⟩ := ht
              simpa using (Bool.and_eq_true .. |>.mp h).1
            · simp [insName, hda] at ht
              obtain ⟨rfl, _⟩ := ht
              exact pyStrLt_asymm _ _ hba
        simp only [List.map_cons, namesSortedBy, Bool.and_eq_true]
        exact ⟨by simpa using hhead, by simpa using hrec⟩
    · simp only [insName, hba, if_false, List.map_cons, Bool.false_eq_true]
      simp only [namesSortedBy, Bool.and_eq_true]
      exact ⟨by simpa using hba, by simpa using h⟩

/-- `pySortByName` sorts by raw (case-sensitive) name, ascending. -/
theorem pySortByName_sorted (l : List Account) :
    namesSortedBy pyStrLt ((pySortByName l).map Account.name) = true := by
  induction l with
  | nil => rfl
  | cons a t ih => exact insName_sorted a (pySortByName t) ih

/-- The per-section top-level account list is sorted by raw name. -/
theorem topLevelOf_sorted_cs (sa : List Account) :
    namesSortedBy pyStrLt ((topLevelOf sa).map Account.name) = true :=
  pySortByName_sorted _

/-- The child bucket of the hierarchy index is sorted by raw name. -/
theorem childrenOf_sorted_cs (coa : List Account) (pid : String) :
    namesSortedBy pyStrLt ((childrenOf coa pid).map Account.name) = true :=
  pySortByName_sorted _

/-- Counterexample to C2 as stated: the top-level account list fed into
injection is sorted by Python `sort(key=Name)`, which is case-sensitive;
names `"a"`, `"B"` come out `["B", "a"]`, which is not case-insensitively
ascending. -/
theorem bucket_ci_sorted_cex :
    namesSortedBy ciStrLt ((topLevelOf
      [⟨"1", "a", "Bank", false, none⟩, ⟨"2", "B", "Bank", false, none⟩]).map
        Account.name) = false := by decide

/-! ## Well-formedness (the §3 node invariant) and deep sortedness -/

mutual
/-- A node is well-formed when it does not carry both a header and a
`ColData` row, a node with a header has a `Rows` container (the §3
data-model invariant: `Data` has `row`, `Section` has `header`+children),
and its sub-rows are well-formed. -/
def wfRow : Row → Bool
  | .mk _ _ header colData sub _ =>
    (header.isEmpty || colData.isEmpty) &&
      ((header.isEmpty || !sub.isNone) && wfSub sub)

/-- `wfRows` on an optional sub-row list. -/
def wfSub : Option (List Row) → Bool
  | some l => wfRows l
  | none => true

/-- All rows of a list are well-formed. -/
def wfRows : List Row → Bool
  | [] => true
  | r :: rest => wfRow r && wfRows rest
end

mutual
/-- Every children list below this row is case-insensitively
name-sorted. -/
def rowSorted : Row → Bool
  | .mk _ _ _ _ sub _ => subSorted sub

/-- Deep sortedness of an optional sub-row list, including the list's own
name order. -/
def subSorted : Option (List Row) → Bool
  | some l => namesSortedBy ciStrLt (l.map getRowName) && rowsSorted l
  | none => true

/-- `rowSorted` over a list of rows. -/
def rowsSorted : List Row → Bool
  | [] => true
  | r :: rest => rowSorted r && rowsSorted rest
end

/-- Deep sortedness of a row list, its own name order included. -/
def listSorted (rs : List Row) : Bool :=
  namesSortedBy ciStrLt (rs.map getRowName) && rowsSorted rs

/-- `getRowName` ignores the sub-row list. -/
theorem getRowName_setSubRows (r : Row) (v : Option (List Row)) :
    getRowName (Row.setSubRows r v) = getRowName r := by
  cases r; rfl

/-- `wfRows` distributes over cons. -/
theorem wfRows_cons (r : Row) (rest : List Row) :
    wfRows (r :: rest) = (wfRow r && wfRows rest) := rfl

/-- The name of an injected data row is the account name. -/
theorem getRowName_mkDataRow (a : Account) (nc : Nat) :
    getRowName (mkDataRow a nc) = a.name := rfl

/-- The name of an injected section row is the account name. -/
theorem getRowName_mkSectionRow (a : Account) (nc : Nat) (l : List Row) :
    getRowName (mkSectionRow a nc l) = a.name := rfl

/-- Promotion preserves the display name of a header-less row. -/
theorem getRowName_promoteRow (r : Row) (name : String) (nc : Nat)
    (hh : r.header = []) :
    getRowName (promoteRow r name nc) = getRowName r := by
  rcases r with ⟨t, g, header, colData, sub, sm⟩
  simp only [Row.header] at hh
  subst hh
  cases colData <;> rfl

/-- `insertSorted` keeps every existing row and adds the new one: it is an
insertion at one position. -/
theorem insertSorted_split (rows : List Row) (newRow : Row) (name : String) :
    ∃ l1 l2, rows = l1 ++ l2 ∧
      insertSorted rows newRow name = l1 ++ newRow :: l2 := by
  induction rows with
  | nil => exact ⟨[], [], rfl, rfl⟩
  | cons r rest ih =>
    by_cases hc : ciStrLt name (getRowName r)
    · exact ⟨[], r :: rest, rfl, by simp [insertSorted, hc]⟩
    · obtain ⟨l1, l2, he, hi⟩ := ih
      exact ⟨r :: l1, l2, by simp [he], by simp [insertSorted, hc, hi]⟩

/-- `wfRows` through `insertSorted`. -/
theorem insertSorted_wf (rows : List Row) (newRow : Row) (name : String)
    (hwf : wfRows rows = true) (hnew : wfRow newRow = true) :
    wfRows (insertSorted rows newRow name) = true := by
  induction rows with
  | nil => simp [insertSorted, wfRows, hnew]
  | cons r rest ih =>
    rw [wfRows_cons, Bool.and_eq_true] at hwf
    by_cases hc : ciStrLt name (getRowName r)
    · simp [insertSorted, hc, wfRows, hnew, hwf.1, hwf.2]
    · simp only [insertSorted, hc, if_false, Bool.false_eq_true]
      simp [wfRows, hwf.1, ih hwf.2]

/-- `rowsSorted` through `insertSorted`. -/
theorem insertSorted_rowsSorted (rows : List Row) (newRow : Row)
    (name : String) (hs : rowsSorted rows = true)
    (hnew : rowSorted newRow = true) :
    rowsSorted (insertSorted rows newRow name) = true := by
  induction rows with
  | nil => simp [insertSorted, rowsSorted, hnew]
  | cons r rest ih =>
    have hs1 : rowSorted r = true := (Bool.and_eq_true .. |>.mp hs).1
    have hs2 : rowsSorted rest = true := (Bool.and_eq_true .. |>.mp hs).2
    by_cases hc : ciStrLt name (getRowName r)
    · simp [insertSorted, hc, rowsSorted, hnew, hs1, hs2]
    · simp only [insertSorted, hc, if_false, Bool.false_eq_true]
      simp [rowsSorted, hs1, ih hs2]

/-- `insertSorted` keeps the name list case-insensitively sorted when the
new row's name is the insertion key. -/
theorem insertSorted_names_sorted (rows : List Row) (newRow : Row)
    (name : String) (hname : getRowName newRow = name)
    (hs : namesSortedBy ciStrLt (rows.map getRowName) = true) :
    namesSortedBy ciStrLt ((insertSorted rows newRow name).map getRowName)
      = true := by
  induction rows with
  | nil => simp [insertSorted, namesSortedBy]
  | cons r rest ih =>
    by_cases hc : ciStrLt name (getRowName r)
    · simp only [insertSorted, hc, if_true, List.map_cons, hname]
      simp only [namesSortedBy, Bool.and_eq_true]
      refine ⟨by simpa using ciStrLt_asymm _ _ hc, by simpa using hs⟩
    · have hs2 : namesSortedBy ciStrLt (rest.map getRowName) = true := by
        cases rest with
        | nil => rfl
        | cons r2 rest2 => exact (Bool.and_eq_true .. |>.mp hs).2
      have hrec := ih hs2
      simp only [insertSorted, hc, if_false, List.map_cons,
        Bool.false_eq_true]
      cases hi : insertSorted rest newRow name with
      | nil => simp [namesSortedBy]
      | cons c t' =>
        rw [hi] at hrec
        have hhead : ciStrLt (getRowName c) (getRowName r) = false := by
          cases rest with
          | nil =>
            simp [insertSorted] at hi
            obtain ⟨rfl, rfl⟩ := hi
            rw [hname]
            simpa using hc
          | cons r2 rest2 =>
            by_cases h2 : ciStrLt name (getRowName r2)
            · simp [insertSorted, h2] at hi
              obtain ⟨rfl, _⟩ := hi
              rw [hname]
              simpa using hc
            · simp [insertSorted, h2] at hi
              obtain ⟨rfl, _⟩ := hi
              simpa using (Bool.and_eq_true .. |>.mp hs).1
        simp only [List.map_cons, namesSortedBy, Bool.and_eq_true]
        exact ⟨by simpa using hhead, by simpa using hrec⟩

/-- `updateFirstMatch` preserves the name list when the update does. -/
theorem updateFirstMatch_names (p : Row → Bool) (f : Row → Row)
    (L : List Row)
    (hf : ∀ r, r ∈ L → p r = true → wfRow r = true →
      getRowName (f r) = getRowName r)
    (hwf : wfRows L = true) :
    (updateFirstMatch p f L).map getRowName = L.map getRowName := by
  induction L with
  | nil => rfl
  | cons r rest ih =>
    rw [wfRows_cons, Bool.and_eq_true] at hwf
    by_cases hp : p r
    · simp [updateFirstMatch, hp,
        hf r (List.mem_cons_self r rest) hp hwf.1]
    · simp only [updateFirstMatch, hp, if_false, List.map_cons,
        Bool.false_eq_true]
      rw [ih (fun r2 h2 => hf r2 (List.mem_cons_of_mem r h2)) hwf.2]

/-- `updateFirstMatch` preserves per-row invariants when the update does. -/
theorem updateFirstMatch_each (p : Row → Bool) (f : Row → Row)
    (L : List Row)
    (hf : ∀ r, r ∈ L → p r = true → wfRow r = true → rowSorted r = true →
      wfRow (f r) = true ∧ rowSorted (f r) = true)
    (hwf : wfRows L = true) (hrs : rowsSorted L = true) :
    wfRows (updateFirstMatch p f L) = true ∧
      rowsSorted (updateFirstMatch p f L) = true := by
  induction L with
  | nil => exact ⟨rfl, rfl⟩
  | cons r rest ih =>
    rw [wfRows_cons, Bool.and_eq_true] at hwf
    have hrs1 : rowSorted r = true := (Bool.and_eq_true .. |>.mp hrs).1
    have hrs2 : rowsSorted rest = true := (Bool.and_eq_true .. |>.mp hrs).2
    by_cases hp : p r
    · obtain ⟨h1, h2⟩ := hf r (List.mem_cons_self r rest) hp hwf.1 hrs1
      constructor
      · simp [updateFirstMatch, hp, wfRows, h1, hwf.2]
      · simp [updateFirstMatch, hp, rowsSorted, h2, hrs2]
    · obtain ⟨h1, h2⟩ := ih (fun r2 hm => hf r2 (List.mem_cons_of_mem r hm))
        hwf.2 hrs2
      constructor
      · simp [updateFirstMatch, hp, wfRows, hwf.1, h1]
      · simp [updateFirstMatch, hp, rowsSorted, hrs1, h2]

/-- `subSorted` on a present sub-row list is `listSorted`. -/
theorem subSorted_some (l : List Row) : subSorted (some l) = listSorted l :=
  rfl

/-- `wfSub` on a present sub-row list is `wfRows`. -/
theorem wfSub_some (l : List Row) : wfSub (some l) = wfRows l := rfl

/-- `listSorted` of the empty list. -/
theorem listSorted_nil : listSorted [] = true := rfl

/-- Unpacking `wfRow` on a constructor. -/
theorem wfRow_parts (t : Option String) (g : String)
    (header colData : List Cell) (sub : Option (List Row))
    (sm : List Cell) (h : wfRow (.mk t g header colData sub sm) = true) :
    (header.isEmpty || colData.isEmpty) = true ∧
      (header.isEmpty || !sub.isNone) = true ∧ wfSub sub = true := by
  simp only [wfRow, Bool.and_eq_true] at h
  exact ⟨h.1, h.2.1, h.2.2⟩

/-- The invariants through `updateMatched`, given that the recursive call
preserves them. -/
theorem updateMatched_inv (nc : Nat) (name : String)
    (recur : List Row → List Account → List Row)
    (children : List Account) (r : Row)
    (hwf : wfRow r = true) (hrs : rowSorted r = true)
    (hrec : ∀ l, wfRows l = true → listSorted l = true →
      wfRows (recur l children) = true ∧ listSorted (recur l children) = true) :
    wfRow (updateMatched nc name recur children r) = true ∧
      rowSorted (updateMatched nc name recur children r) = true ∧
      getRowName (updateMatched nc name recur children r) = getRowName r := by
  rcases r with ⟨t, g, header, colData, sub, sm⟩
  obtain ⟨hw1, hw2, hw3⟩ := wfRow_parts t g header colData sub sm hwf
  cases sub with
  | none =>
    have hh : header = [] := by
      simpa [List.isEmpty_iff] using hw2
    subst hh
    obtain ⟨hrw, hrl⟩ := hrec [] rfl rfl
    refine ⟨?_, ?_, ?_⟩
    · simp [updateMatched, promoteRow, Row.subRows, Row.setSubRows, wfRow,
        wfSub, hrw]
    · simp only [updateMatched, promoteRow, Row.subRows, Row.setSubRows,
        Row.group, Row.colData]
      simp only [Option.isNone_none, if_true, Option.getD_none,
        Option.getD_some]
      rw [show rowSorted (Row.mk (some "Section") g colData []
        (some (recur [] children))
        (makeZeroColData ("Total " ++ name) "" nc)) =
        subSorted (some (recur [] children)) from rfl]
      rw [subSorted_some]
      exact hrl
    · rw [show updateMatched nc name recur children
        (Row.mk t g [] colData none sm) =
        Row.setSubRows (promoteRow (Row.mk t g [] colData none sm) name nc)
          (some (recur [] children)) from rfl]
      rw [getRowName_setSubRows]
      exact getRowName_promoteRow _ name nc rfl
  | some l =>
    have hsl : listSorted l = true := by
      have : subSorted (some l) = true := hrs
      simpa [subSorted_some] using this
    have hwl : wfRows l = true := by
      simpa [wfSub_some] using hw3
    obtain ⟨hrw, hrl⟩ := hrec l hwl hsl
    refine ⟨?_, ?_, ?_⟩
    · simp only [updateMatched, Row.subRows, Option.isNone_some,
        Bool.false_eq_true, if_false, Row.setSubRows, Option.getD_some]
      simp only [wfRow, Bool.and_eq_true]
      refine ⟨by simpa using hw1, by simp, by simpa [wfSub_some] using hrw⟩
    · simp only [updateMatched, Row.subRows, Option.isNone_some,
        Bool.false_eq_true, if_false, Row.setSubRows, Option.getD_some]
      rw [show rowSorted (Row.mk t g header colData
        (some (recur l children)) sm) =
        subSorted (some (recur l children)) from rfl]
      rw [subSorted_some]
      exact hrl
    · rw [show updateMatched nc name recur children
        (Row.mk t g header colData (some l) sm) =
        Row.setSubRows (Row.mk t g header colData (some l) sm)
          (some (recur l children)) from rfl]
      rw [getRowName_setSubRows]

/-- A member of a well-formed list is well-formed. -/
theorem wfRows_mem (L : List Row) (r : Row) (h : wfRows L = true)
    (hm : r ∈ L) : wfRow r = true := by
  induction L with
  | nil => simp at hm
  | cons r0 rest ih =>
    rcases List.mem_cons.mp hm with rfl | hm2
    · exact (Bool.and_eq_true .. |>.mp h).1
    · exact ih (Bool.and_eq_true .. |>.mp h).2 hm2

/-- A member of a deeply sorted list is deeply sorted. -/
theorem rowsSorted_mem (L : List Row) (r : Row) (h : rowsSorted L = true)
    (hm : r ∈ L) : rowSorted r = true := by
  induction L with
  | nil => simp at hm
  | cons r0 rest ih =>
    rcases List.mem_cons.mp hm with rfl | hm2
    · exact (Bool.and_eq_true .. |>.mp h).1
    · exact ih (Bool.and_eq_true .. |>.mp h).2 hm2

/-- `updateMatched` preserves the display name of a well-formed row. -/
theorem updateMatched_name (nc : Nat) (name : String)
    (recur : List Row → List Account → List Row)
    (children : List Account) (r : Row) (hwf : wfRow r = true) :
    getRowName (updateMatched nc name recur children r) = getRowName r := by
  rcases r with ⟨t, g, header, colData, sub, sm⟩
  obtain ⟨hw1, hw2, hw3⟩ := wfRow_parts t g header colData sub sm hwf
  cases sub with
  | none =>
    have hh : header = [] := by
      simpa [List.isEmpty_iff] using hw2
    subst hh
    rw [show updateMatched nc name recur children
      (Row.mk t g [] colData none sm) =
      Row.setSubRows (promoteRow (Row.mk t g [] colData none sm) name nc)
        (some (recur [] children)) from rfl]
    rw [getRowName_setSubRows]
    exact getRowName_promoteRow _ name nc rfl
  | some l =>
    rw [show updateMatched nc name recur children
      (Row.mk t g header colData (some l) sm) =
      Row.setSubRows (Row.mk t g header colData (some l) sm)
        (some (recur l children)) from rfl]
    rw [getRowName_setSubRows]

/-- Well-formedness and deep sortedness through one injection step. -/
theorem injectStep_inv (n : Nat) (coa : List Account) (nc : Nat)
    (present : List String) (L : List Row) (a : Account)
    (hwf : wfRows L = true) (hs : listSorted L = true)
    (ihn : ∀ (L' : List Row) (as' : List Account),
      wfRows L' = true → listSorted L' = true →
      wfRows (injectIntoRows coa nc present n L' as') = true ∧
      listSorted (injectIntoRows coa nc present n L' as') = true) :
    wfRows (injectStep coa nc present (injectIntoRows coa nc present n) L a)
        = true ∧
      listSorted (injectStep coa nc present
        (injectIntoRows coa nc present n) L a) = true := by
  have hns : namesSortedBy ciStrLt (L.map getRowName) = true :=
    (Bool.and_eq_true .. |>.mp hs).1
  have hrs : rowsSorted L = true := (Bool.and_eq_true .. |>.mp hs).2
  have hinj0 := ihn [] (childrenOf coa a.id) rfl rfl
  by_cases hp : a.id ∈ present
  · have hpb : present.contains a.id = true := by simpa using hp
    by_cases hch : (childrenOf coa a.id).isEmpty
    · simpa [injectStep, hp, hch] using ⟨hwf, hs⟩
    · have hnames := updateFirstMatch_names (rowMatches a.id)
        (updateMatched nc a.name (injectIntoRows coa nc present n)
          (childrenOf coa a.id)) L
        (fun r _ _ hw => updateMatched_name nc a.name _ _ r hw) hwf
      have heach := updateFirstMatch_each (rowMatches a.id)
        (updateMatched nc a.name (injectIntoRows coa nc present n)
          (childrenOf coa a.id)) L
        (fun r _ _ hw hr =>
          ⟨(updateMatched_inv nc a.name _ _ r hw hr
              (fun l hw2 hs2 => ihn l (childrenOf coa a.id) hw2 hs2)).1,
           (updateMatched_inv nc a.name _ _ r hw hr
              (fun l hw2 hs2 => ihn l (childrenOf coa a.id) hw2 hs2)).2.1⟩)
        hwf hrs
      refine ⟨?_, ?_⟩
      · simpa [injectStep, hp, hch] using heach.1
      · simp only [injectStep, hpb, hch, if_true, if_false, Bool.false_eq_true,
          listSorted, Bool.and_eq_true]
        exact ⟨by rw [hnames]; exact hns, heach.2⟩
  · have hpb : present.contains a.id = false := by simpa using hp
    have hzero : wfRow (mkDataRow a nc) = true ∧
        rowSorted (mkDataRow a nc) = true := ⟨rfl, rfl⟩
    by_cases hch : (childrenOf coa a.id).isEmpty
    · refine ⟨?_, ?_⟩
      · simpa [injectStep, hp, hch] using
          insertSorted_wf L (mkDataRow a nc) a.name hwf hzero.1
      · simp only [injectStep, hpb, hch, if_true, if_false, Bool.false_eq_true,
          listSorted, Bool.and_eq_true]
        exact ⟨insertSorted_names_sorted L (mkDataRow a nc) a.name rfl hns,
          insertSorted_rowsSorted L (mkDataRow a nc) a.name hrs hzero.2⟩
    · have hsec : wfRow (mkSectionRow a nc
          (injectIntoRows coa nc present n [] (childrenOf coa a.id))) = true ∧
          rowSorted (mkSectionRow a nc
            (injectIntoRows coa nc present n [] (childrenOf coa a.id)))
            = true := by
        constructor
        · simp [mkSectionRow, wfRow, makeZeroColData, wfSub_some, hinj0.1]
        · rw [show rowSorted (mkSectionRow a nc
            (injectIntoRows coa nc present n [] (childrenOf coa a.id))) =
            subSorted (some (injectIntoRows coa nc present n []
              (childrenOf coa a.id))) from rfl]
          rw [subSorted_some]
          exact hinj0.2
      refine ⟨?_, ?_⟩
      · simpa [injectStep, hp, hch] using
          insertSorted_wf L _ a.name hwf hsec.1
      · simp only [injectStep, hpb, hch, if_true, if_false, Bool.false_eq_true,
          listSorted, Bool.and_eq_true]
        exact ⟨insertSorted_names_sorted L _ a.name rfl hns,
          insertSorted_rowsSorted L _ a.name hrs hsec.2⟩

/-- Unfolding one account of the injection loop. -/
theorem injectIntoRows_cons (coa : List Account) (nc : Nat)
    (present : List String) (n : Nat) (L : List Row) (a : Account)
    (rest : List Account) :
    injectIntoRows coa nc present (n + 1) L (a :: rest) =
      injectIntoRows coa nc present (n + 1)
        (injectStep coa nc present (injectIntoRows coa nc present n) L a)
        rest := rfl

/-- Fuel-zero injection is the identity. -/
theorem injectIntoRows_zero (coa : List Account) (nc : Nat)
    (present : List String) (L : List Row) (as : List Account) :
    injectIntoRows coa nc present 0 L as = L := rfl

/-- Empty account list injection is the identity. -/
theorem injectIntoRows_nil (coa : List Account) (nc : Nat)
    (present : List String) (n : Nat) (L : List Row) :
    injectIntoRows coa nc present n L [] = L := by
  cases n <;> rfl

/-- Injection preserves well-formedness and deep sortedness. -/
theorem injectIntoRows_inv (n : Nat) (coa : List Account) (nc : Nat)
    (present : List String) :
    ∀ (L : List Row) (as : List Account),
      wfRows L = true → listSorted L = true →
      wfRows (injectIntoRows coa nc present n L as) = true ∧
      listSorted (injectIntoRows coa nc present n L as) = true := by
  induction n with
  | zero => intro L as hwf hs; simpa [injectIntoRows_zero] using ⟨hwf, hs⟩
  | succ n ihn =>
    intro L as
    induction as generalizing L with
    | nil => intro hwf hs; simpa [injectIntoRows_nil] using ⟨hwf, hs⟩
    | cons a rest iha =>
      intro hwf hs
      rw [injectIntoRows_cons]
      have hstep := injectStep_inv n coa nc present L a hwf hs
        (fun L' as' hw hs2 => ihn L' as' hw hs2)
      exact iha _ hstep.1 hstep.2


mutual
/-- The section walk preserves well-formedness, deep sortedness, and the
display name of each row. -/
theorem processSectionRow_inv (coa : List Account) (present : List String)
    (nc fuel : Nat) (s : Row) (hwf : wfRow s = true)
    (hrs : rowSorted s = true) :
    wfRow (processSectionRow coa present nc fuel s) = true ∧
      rowSorted (processSectionRow coa present nc fuel s) = true ∧
      getRowName (processSectionRow coa present nc fuel s)
        = getRowName s := by
  match s with
  | .mk t g header colData sub sm =>
    obtain ⟨hw1, hw2, hw3⟩ := wfRow_parts t g header colData sub sm hwf
    cases hg : sectionAccountTypes g with
    | some types =>
      simp only [processSectionRow, hg, Option.elim]
      by_cases hsa : (coa.filter
          (fun a => types.contains a.accountType)).isEmpty
      · simp only [injectMatched, hsa, if_true]
        exact ⟨hwf, hrs, trivial⟩
      · have hbwf : wfRows ((Row.mk t g header colData sub sm).subRows.getD [])
            = true := by
          cases sub with
          | none => rfl
          | some l => simpa [Row.subRows, wfSub_some] using hw3
        have hbs : listSorted
            ((Row.mk t g header colData sub sm).subRows.getD []) = true := by
          cases sub with
          | none => rfl
          | some l =>
            have : subSorted (some l) = true := hrs
            simpa [Row.subRows, subSorted_some] using this
        have hinj := injectIntoRows_inv fuel coa nc present
          ((Row.mk t g header colData sub sm).subRows.getD [])
          (topLevelOf (coa.filter (fun a => types.contains a.accountType)))
          hbwf hbs
        refine ⟨?_, ?_, ?_⟩
        · simp only [injectMatched, hsa, if_false, Bool.false_eq_true,
            Row.setSubRows]
          simp only [wfRow, Bool.and_eq_true]
          exact ⟨by simpa using hw1, by simp,
            by simpa [wfSub_some] using hinj.1⟩
        · simp only [injectMatched, hsa, if_false, Bool.false_eq_true,
            Row.setSubRows]
          rw [show rowSorted (Row.mk t g header colData
            (some (injectIntoRows coa nc present fuel
              ((Row.mk t g header colData sub sm).subRows.getD [])
              (topLevelOf (coa.filter
                (fun a => types.contains a.accountType))))) sm) =
            subSorted (some (injectIntoRows coa nc present fuel
              ((Row.mk t g header colData sub sm).subRows.getD [])
              (topLevelOf (coa.filter
                (fun a => types.contains a.accountType))))) from rfl]
          rw [subSorted_some]
          exact hinj.2
        · simp only [injectMatched, hsa, if_false, Bool.false_eq_true]
          exact getRowName_setSubRows _ _
    | none =>
      have hsubinv := processSubSections_inv coa present nc fuel sub
        (by simpa using hw3) (by simpa using hrs)
      simp only [processSectionRow, hg, Option.elim]
      refine ⟨?_, ?_, ?_⟩
      · simp only [wfRow, Bool.and_eq_true]
        refine ⟨by simpa using hw1, ?_, by simpa using hsubinv.1⟩
        have hn : (processSubSections coa present nc fuel sub).isNone
            = sub.isNone := by
          cases sub <;> rfl
        rw [hn]
        simpa using hw2
      · have : rowSorted (Row.mk t g header colData
            (processSubSections coa present nc fuel sub) sm) =
            subSorted (processSubSections coa present nc fuel sub) := rfl
        rw [this]
        exact hsubinv.2
      · cases header with
        | nil => cases colData <;> rfl
        | cons c cs => rfl

/-- `processSectionRow_inv` on an optional sub-row list. -/
theorem processSubSections_inv (coa : List Account) (present : List String)
    (nc fuel : Nat) (sub : Option (List Row)) (hwf : wfSub sub = true)
    (hrs : subSorted sub = true) :
    wfSub (processSubSections coa present nc fuel sub) = true ∧
      subSorted (processSubSections coa present nc fuel sub) = true := by
  match sub with
  | none => exact ⟨rfl, rfl⟩
  | some l =>
    have h := processSections_inv coa present nc fuel l
      (by simpa [wfSub_some] using hwf)
      ((Bool.and_eq_true .. |>.mp hrs).2)
    refine ⟨by simpa [processSubSections, wfSub_some] using h.1, ?_⟩
    have hns : namesSortedBy ciStrLt (l.map getRowName) = true :=
      (Bool.and_eq_true .. |>.mp hrs).1
    simp only [processSubSections, subSorted, Bool.and_eq_true]
    rw [h.2.2]
    exact ⟨hns, h.2.1⟩

/-- `processSectionRow_inv` over a list of rows. -/
theorem processSections_inv (coa : List Account) (present : List String)
    (nc fuel : Nat) (rows : List Row) (hwf : wfRows rows = true)
    (hrs : rowsSorted rows = true) :
    wfRows (processSections coa present nc fuel rows) = true ∧
      rowsSorted (processSections coa present nc fuel rows) = true ∧
      (processSections coa present nc fuel rows).map getRowName
        = rows.map getRowName := by
  match rows with
  | [] => exact ⟨rfl, rfl, rfl⟩
  | r :: rest =>
    have h1 := processSectionRow_inv coa present nc fuel r
      ((Bool.and_eq_true .. |>.mp hwf).1) ((Bool.and_eq_true .. |>.mp hrs).1)
    have h2 := processSections_inv coa present nc fuel rest
      ((Bool.and_eq_true .. |>.mp hwf).2) ((Bool.and_eq_true .. |>.mp hrs).2)
    refine ⟨?_, ?_, ?_⟩
    · simp [processSections, wfRows, h1.1, h2.1]
    · simp [processSections, rowsSorted, h1.2.1, h2.2.1]
    · simp [processSections, h1.2.2, h2.2.2]
end

/-- C2 (amended): after a merge of a well-formed report whose children
lists are case-insensitively name-sorted, every children list of the
result is still case-insensitively non-decreasing; the account-hierarchy
buckets and the per-section top-level lists fed into injection are sorted
by raw (case-sensitive) Python string order, not case-insensitively. -/
theorem merge_keeps_children_sorted (r : Report) (accounts : List Account)
    (hwf : wfRows (r.rows.getD []) = true)
    (hs : listSorted (r.rows.getD []) = true) :
    (∀ r2, injectMissingAccounts (some r) accounts = some r2 →
      listSorted (r2.rows.getD []) = true) ∧
    (∀ sa : List Account,
      namesSortedBy pyStrLt ((topLevelOf sa).map Account.name) = true) ∧
    ∀ (coa : List Account) (pid : String),
      namesSortedBy pyStrLt ((childrenOf coa pid).map Account.name)
        = true := by
  refine ⟨?_, topLevelOf_sorted_cs, childrenOf_sorted_cs⟩
  intro r2 h2
  obtain ⟨cols, rws⟩ := r
  by_cases ha : accounts.isEmpty
  · simp [injectMissingAccounts, ha] at h2
    subst h2
    exact hs
  · by_cases hc : cols.length == 0
    · simp [injectMissingAccounts, ha, hc] at h2
      subst h2
      exact hs
    · rcases rws with _ | rows
      · simp [injectMissingAccounts, ha, hc] at h2
        subst h2
        exact hs
      · simp [injectMissingAccounts, ha, hc] at h2
        subst h2
        simp only [Option.getD_some] at hwf hs ⊢
        have hp := processSections_inv accounts
          (collectPresentIds rows) cols.length (accounts.length + 1) rows hwf
          ((Bool.and_eq_true .. |>.mp hs).2)
        simp only [listSorted, Bool.and_eq_true]
        rw [hp.2.2]
        exact ⟨(Bool.and_eq_true .. |>.mp hs).1, hp.2.1⟩

/-- Witness for `merge_keeps_children_sorted`: the bank-section scenario. -/
theorem merge_keeps_children_sorted_witness :
    (∀ r2, injectMissingAccounts (some ⟨["", "Total"],
      some [.mk (some "Section") "BankAccounts" [⟨some "Bank Accounts", none⟩]
        [] (some [.mk (some "Data") "" []
          [⟨some "Checking", some "1"⟩, ⟨some "100", none⟩] none []])
        [⟨some "Total Bank Accounts", none⟩, ⟨some "100", none⟩]]⟩)
        [⟨"1", "Checking", "Bank", false, none⟩,
         ⟨"2", "Savings", "Bank", false, none⟩] = some r2 →
      listSorted (r2.rows.getD []) = true) ∧
    (∀ sa : List Account,
      namesSortedBy pyStrLt ((topLevelOf sa).map Account.name) = true) ∧
    ∀ (coa : List Account) (pid : String),
      namesSortedBy pyStrLt ((childrenOf coa pid).map Account.name) = true :=
  merge_keeps_children_sorted ⟨["", "Total"],
    some [.mk (some "Section") "BankAccounts" [⟨some "Bank Accounts", none⟩]
      [] (some [.mk (some "Data") "" []
        [⟨some "Checking", some "1"⟩, ⟨some "100", none⟩] none []])
      [⟨some "Total Bank Accounts", none⟩, ⟨some "100", none⟩]]⟩
    [⟨"1", "Checking", "Bank", false, none⟩,
     ⟨"2", "Savings", "Bank", false, none⟩] (by decide) (by decide)

/-! ## C5: preservation of present rows -/

/-- The identifying key a row shows: its display name together with the id
of the same first cell `_get_row_name` reads. -/
def keyId (r : Row) : Option String :=
  match r.header with
  | c :: _ => c.id
  | [] =>
    match r.colData with
    | c :: _ => c.id
    | [] => none

/-- Display name and first-cell id of a row. -/
def rowKeyOf (r : Row) : String × Option String := (getRowName r, keyId r)

mutual
/-- The keys of a row's subtree in preorder. -/
def rowKeys : Row → List (String × Option String)
  | .mk t g h c sub sm =>
    rowKeyOf (Row.mk t g h c sub sm) :: subKeys sub

/-- `rowKeys` on an optional sub-row list. -/
def subKeys : Option (List Row) → List (String × Option String)
  | some l => listKeys l
  | none => []

/-- `rowKeys` over a list of rows, in order. -/
def listKeys : List Row → List (String × Option String)
  | [] => []
  | r :: rest => rowKeys r ++ listKeys rest
end

/-- `listKeys` distributes over append. -/
theorem listKeys_append (l1 l2 : List Row) :
    listKeys (l1 ++ l2) = listKeys l1 ++ listKeys l2 := by
  induction l1 with
  | nil => rfl
  | cons r rest ih => simp [listKeys, ih]

/-- `rowKeyOf` ignores the sub-row list. -/
theorem rowKeyOf_setSubRows (r : Row) (v : Option (List Row)) :
    rowKeyOf (Row.setSubRows r v) = rowKeyOf r := by
  cases r; rfl

/-- Promotion preserves the key of a header-less row. -/
theorem rowKeyOf_promoteRow (r : Row) (name : String) (nc : Nat)
    (hh : r.header = []) :
    rowKeyOf (promoteRow r name nc) = rowKeyOf r := by
  rcases r with ⟨t, g, header, colData, sub, sm⟩
  simp only [Row.header] at hh
  subst hh
  cases colData <;> rfl

/-- `rowKeys` unfolding. -/
theorem rowKeys_eq (r : Row) :
    rowKeys r = rowKeyOf r :: subKeys r.subRows := by
  cases r; rfl

/-- The keys of a row survive `updateMatched` as a prefix-preserving
sublist. -/
theorem updateMatched_keys (nc : Nat) (name : String)
    (recur : List Row → List Account → List Row)
    (children : List Account) (r : Row) (hwf : wfRow r = true)
    (hrec : ∀ l, wfRows l = true →
      wfRows (recur l children) = true ∧
      List.Sublist (listKeys l) (listKeys (recur l children))) :
    wfRow (updateMatched nc name recur children r) = true ∧
      List.Sublist (rowKeys r) (rowKeys (updateMatched nc name recur children r)) := by
  rcases r with ⟨t, g, header, colData, sub, sm⟩
  obtain ⟨hw1, hw2, hw3⟩ := wfRow_parts t g header colData sub sm hwf
  cases sub with
  | none =>
    have hh : header = [] := by
      simpa [List.isEmpty_iff] using hw2
    subst hh
    obtain ⟨hrw, _⟩ := hrec [] rfl
    constructor
    · simp [updateMatched, promoteRow, Row.subRows, Row.setSubRows, wfRow,
        wfSub, hrw]
    · rw [show updateMatched nc name recur children
        (Row.mk t g [] colData none sm) =
        Row.setSubRows (promoteRow (Row.mk t g [] colData none sm) name nc)
          (some (recur [] children)) from rfl]
      rw [rowKeys_eq, rowKeys_eq]
      have hk : rowKeyOf (Row.setSubRows
          (promoteRow (Row.mk t g [] colData none sm) name nc)
          (some (recur [] children))) =
          rowKeyOf (Row.mk t g [] colData none sm) := by
        rw [rowKeyOf_setSubRows]
        exact rowKeyOf_promoteRow _ name nc rfl
      rw [hk]
      exact List.Sublist.cons₂ _ (by simp [Row.subRows, subKeys])
  | some l =>
    have hwl : wfRows l = true := by
      simpa [wfSub_some] using hw3
    obtain ⟨hrw, hrk⟩ := hrec l hwl
    constructor
    · simp only [updateMatched, Row.subRows, Option.isNone_some,
        Bool.false_eq_true, if_false, Row.setSubRows, Option.getD_some]
      simp only [wfRow, Bool.and_eq_true]
      exact ⟨by simpa using hw1, by simp, by simpa [wfSub_some] using hrw⟩
    · rw [show updateMatched nc name recur children
        (Row.mk t g header colData (some l) sm) =
        Row.setSubRows (Row.mk t g header colData (some l) sm)
          (some (recur l children)) from rfl]
      rw [rowKeys_eq, rowKeys_eq]
      rw [rowKeyOf_setSubRows]
      exact List.Sublist.cons₂ _ (by simpa [Row.subRows, subKeys] using hrk)

/-- Keys through `updateFirstMatch`. -/
theorem updateFirstMatch_keys (p : Row → Bool) (f : Row → Row)
    (L : List Row)
    (hf : ∀ r, r ∈ L → p r = true → wfRow r = true →
      wfRow (f r) = true ∧ List.Sublist (rowKeys r) (rowKeys (f r)))
    (hwf : wfRows L = true) :
    wfRows (updateFirstMatch p f L) = true ∧
      List.Sublist (listKeys L) (listKeys (updateFirstMatch p f L)) := by
  induction L with
  | nil => exact ⟨rfl, List.Sublist.refl _⟩
  | cons r rest ih =>
    rw [wfRows_cons, Bool.and_eq_true] at hwf
    by_cases hp : p r
    · obtain ⟨h1, h2⟩ := hf r (List.mem_cons_self r rest) hp hwf.1
      constructor
      · simp [updateFirstMatch, hp, wfRows, h1, hwf.2]
      · simp only [updateFirstMatch, hp, if_true, listKeys]
        exact List.Sublist.append h2 (List.Sublist.refl _)
    · obtain ⟨h1, h2⟩ := ih (fun r2 hm => hf r2 (List.mem_cons_of_mem r hm))
        hwf.2
      constructor
      · simp [updateFirstMatch, hp, wfRows, hwf.1, h1]
      · simp only [updateFirstMatch, hp, if_false, Bool.false_eq_true,
          listKeys]
        exact List.Sublist.append (List.Sublist.refl _) h2

/-- Keys through `insertSorted`. -/
theorem insertSorted_keys (rows : List Row) (newRow : Row) (name : String)
    (hwf : wfRows rows = true) (hnew : wfRow newRow = true) :
    wfRows (insertSorted rows newRow name) = true ∧
      List.Sublist (listKeys rows) (listKeys (insertSorted rows newRow name)) := by
  refine ⟨insertSorted_wf rows newRow name hwf hnew, ?_⟩
  obtain ⟨l1, l2, he, hi⟩ := insertSorted_split rows newRow name
  rw [hi, he, listKeys_append, listKeys_append]
  refine List.Sublist.append (List.Sublist.refl _) ?_
  rw [show listKeys (newRow :: l2) = rowKeys newRow ++ listKeys l2 from rfl]
  exact List.sublist_append_right _ _

/-- Keys and well-formedness through one injection step. -/
theorem injectStep_keys (n : Nat) (coa : List Account) (nc : Nat)
    (present : List String) (L : List Row) (a : Account)
    (hwf : wfRows L = true)
    (ihn : ∀ (L' : List Row) (as' : List Account), wfRows L' = true →
      wfRows (injectIntoRows coa nc present n L' as') = true ∧
      List.Sublist (listKeys L') (listKeys (injectIntoRows coa nc present n L' as'))) :
    wfRows (injectStep coa nc present (injectIntoRows coa nc present n) L a)
        = true ∧
      List.Sublist (listKeys L) (listKeys (injectStep coa nc present
        (injectIntoRows coa nc present n) L a)) := by
  by_cases hp : a.id ∈ present
  · by_cases hch : (childrenOf coa a.id).isEmpty
    · have hid : injectStep coa nc present
          (injectIntoRows coa nc present n) L a = L := by
        simp [injectStep, hp, hch]
      rw [hid]
      exact ⟨hwf, List.Sublist.refl _⟩
    · have h := updateFirstMatch_keys (rowMatches a.id)
        (updateMatched nc a.name (injectIntoRows coa nc present n)
          (childrenOf coa a.id)) L
        (fun r _ _ hw => updateMatched_keys nc a.name _ _ r hw
          (fun l hw2 => ihn l (childrenOf coa a.id) hw2)) hwf
      constructor
      · simpa [injectStep, hp, hch] using h.1
      · simpa [injectStep, hp, hch] using h.2
  · by_cases hch : (childrenOf coa a.id).isEmpty
    · have h := insertSorted_keys L (mkDataRow a nc) a.name hwf rfl
      constructor
      · simpa [injectStep, hp, hch] using h.1
      · simpa [injectStep, hp, hch] using h.2
    · have hz := ihn [] (childrenOf coa a.id) rfl
      have hsec : wfRow (mkSectionRow a nc
          (injectIntoRows coa nc present n [] (childrenOf coa a.id)))
          = true := by
        simp [mkSectionRow, wfRow, makeZeroColData, wfSub_some, hz.1]
      have h := insertSorted_keys L (mkSectionRow a nc
        (injectIntoRows coa nc present n [] (childrenOf coa a.id))) a.name
        hwf hsec
      constructor
      · simpa [injectStep, hp, hch] using h.1
      · simpa [injectStep, hp, hch] using h.2

/-- Injection never drops a key: the preorder key sequence of the input is
a subsequence of the output's. -/
theorem injectIntoRows_keys (n : Nat) (coa : List Account) (nc : Nat)
    (present : List String) :
    ∀ (L : List Row) (as : List Account), wfRows L = true →
      wfRows (injectIntoRows coa nc present n L as) = true ∧
      List.Sublist (listKeys L)
        (listKeys (injectIntoRows coa nc present n L as)) := by
  induction n with
  | zero =>
    intro L as hwf
    rw [injectIntoRows_zero]
    exact ⟨hwf, List.Sublist.refl _⟩
  | succ n ihn =>
    intro L as
    induction as generalizing L with
    | nil =>
      intro hwf
      rw [injectIntoRows_nil]
      exact ⟨hwf, List.Sublist.refl _⟩
    | cons a rest iha =>
      intro hwf
      rw [injectIntoRows_cons]
      have hstep := injectStep_keys n coa nc present L a hwf
        (fun L' as' hw => ihn L' as' hw)
      have hrest := iha _ hstep.1
      exact ⟨hrest.1, List.Sublist.trans hstep.2 hrest.2⟩

mutual
/-- The section walk never drops a row's key. -/
theorem processSectionRow_keys (coa : List Account) (present : List String)
    (nc fuel : Nat) (s : Row) (hwf : wfRow s = true) :
    wfRow (processSectionRow coa present nc fuel s) = true ∧
      List.Sublist (rowKeys s)
        (rowKeys (processSectionRow coa present nc fuel s)) := by
  match s with
  | .mk t g header colData sub sm =>
    obtain ⟨hw1, hw2, hw3⟩ := wfRow_parts t g header colData sub sm hwf
    cases hg : sectionAccountTypes g with
    | some types =>
      simp only [processSectionRow, hg, Option.elim]
      by_cases hsa : (coa.filter
          (fun a => types.contains a.accountType)).isEmpty
      · simp only [injectMatched, hsa, if_true]
        exact ⟨hwf, List.Sublist.refl _⟩
      · have hbwf : wfRows ((Row.mk t g header colData sub sm).subRows.getD [])
            = true := by
          cases sub with
          | none => rfl
          | some l => simpa [Row.subRows, wfSub_some] using hw3
        have hinj := injectIntoRows_keys fuel coa nc present
          ((Row.mk t g header colData sub sm).subRows.getD [])
          (topLevelOf (coa.filter (fun a => types.contains a.accountType)))
          hbwf
        constructor
        · simp only [injectMatched, hsa, if_false, Bool.false_eq_true,
            Row.setSubRows]
          simp only [wfRow, Bool.and_eq_true]
          exact ⟨by simpa using hw1, by simp,
            by simpa [wfSub_some] using hinj.1⟩
        · simp only [injectMatched, hsa, if_false, Bool.false_eq_true]
          rw [rowKeys_eq, rowKeys_eq, rowKeyOf_setSubRows]
          refine List.Sublist.cons₂ _ ?_
          rw [show (Row.setSubRows (Row.mk t g header colData sub sm)
            (some (injectIntoRows coa nc present fuel
              ((Row.mk t g header colData sub sm).subRows.getD [])
              (topLevelOf (coa.filter
                (fun a => types.contains a.accountType)))))).subRows =
            some (injectIntoRows coa nc present fuel
              ((Row.mk t g header colData sub sm).subRows.getD [])
              (topLevelOf (coa.filter
                (fun a => types.contains a.accountType)))) from rfl]
          cases sub with
          | none => simp [Row.subRows, subKeys]
          | some l => simpa [Row.subRows, subKeys] using hinj.2
    | none =>
      have hsubinv := processSubSections_keys coa present nc fuel sub
        (by simpa using hw3)
      simp only [processSectionRow, hg, Option.elim]
      constructor
      · simp only [wfRow, Bool.and_eq_true]
        refine ⟨by simpa using hw1, ?_, by simpa using hsubinv.1⟩
        have hn : (processSubSections coa present nc fuel sub).isNone
            = sub.isNone := by
          cases sub <;> rfl
        rw [hn]
        simpa using hw2
      · rw [rowKeys_eq, rowKeys_eq]
        have hk : rowKeyOf (Row.mk t g header colData
            (processSubSections coa present nc fuel sub) sm) =
            rowKeyOf (Row.mk t g header colData sub sm) := by
          cases header with
          | nil => cases colData <;> rfl
          | cons c cs => rfl
        rw [hk]
        exact List.Sublist.cons₂ _ (by simpa [Row.subRows] using hsubinv.2)

/-- `processSectionRow_keys` on an optional sub-row list. -/
theorem processSubSections_keys (coa : List Account) (present : List String)
    (nc fuel : Nat) (sub : Option (List Row)) (hwf : wfSub sub = true) :
    wfSub (processSubSections coa present nc fuel sub) = true ∧
      List.Sublist (subKeys sub)
        (subKeys (processSubSections coa present nc fuel sub)) := by
  match sub with
  | none => exact ⟨rfl, List.Sublist.refl _⟩
  | some l =>
    have h := processSections_keys coa present nc fuel l
      (by simpa [wfSub_some] using hwf)
    exact ⟨by simpa [processSubSections, wfSub_some] using h.1,
      by simpa [processSubSections, subKeys] using h.2⟩

/-- `processSectionRow_keys` over a list of rows. -/
theorem processSections_keys (coa : List Account) (present : List String)
    (nc fuel : Nat) (rows : List Row) (hwf : wfRows rows = true) :
    wfRows (processSections coa present nc fuel rows) = true ∧
      List.Sublist (listKeys rows)
        (listKeys (processSections coa present nc fuel rows)) := by
  match rows with
  | [] => exact ⟨rfl, List.Sublist.refl _⟩
  | r :: rest =>
    have h1 := processSectionRow_keys coa present nc fuel r
      ((Bool.and_eq_true .. |>.mp hwf).1)
    have h2 := processSections_keys coa present nc fuel rest
      ((Bool.and_eq_true .. |>.mp hwf).2)
    constructor
    · simp [processSections, wfRows, h1.1, h2.1]
    · rw [show processSections coa present nc fuel (r :: rest) =
        processSectionRow coa present nc fuel r ::
          processSections coa present nc fuel rest from rfl]
      rw [show listKeys (r :: rest) = rowKeys r ++ listKeys rest from rfl]
      rw [show listKeys (processSectionRow coa present nc fuel r ::
          processSections coa present nc fuel rest) =
        rowKeys (processSectionRow coa present nc fuel r) ++
          listKeys (processSections coa present nc fuel rest) from rfl]
      exact List.Sublist.append h1.2 h2.2
end

/-- C5: for a well-formed report, every row or section present before the
merge is still present after it: the preorder sequence of (display name,
first-cell id) keys of the input tree is a subsequence of the output's —
injection only inserts new nodes or promotes a `Data` node to a `Section`
(whose key is unchanged), and never deletes a node. -/
theorem merge_preserves_present_rows (r : Report) (accounts : List Account)
    (hwf : wfRows (r.rows.getD []) = true) :
    ∀ r2, injectMissingAccounts (some r) accounts = some r2 →
      List.Sublist (listKeys (r.rows.getD []))
        (listKeys (r2.rows.getD [])) := by
  intro r2 h2
  obtain ⟨cols, rws⟩ := r
  by_cases ha : accounts.isEmpty
  · simp [injectMissingAccounts, ha] at h2
    subst h2
    exact List.Sublist.refl _
  · by_cases hc : cols.length == 0
    · simp [injectMissingAccounts, ha, hc] at h2
      subst h2
      exact List.Sublist.refl _
    · rcases rws with _ | rows
      · simp [injectMissingAccounts, ha, hc] at h2
        subst h2
        exact List.Sublist.refl _
      · simp [injectMissingAccounts, ha, hc] at h2
        subst h2
        simp only [Option.getD_some] at hwf ⊢
        exact (processSections_keys accounts (collectPresentIds rows)
          cols.length (accounts.length + 1) rows hwf).2

/-- Witness for `merge_preserves_present_rows` on the bank-section
scenario. -/
theorem merge_preserves_present_rows_witness :
    List.Sublist
      (listKeys ((some [Row.mk (some "Section") "BankAccounts"
        [⟨some "Bank Accounts", none⟩] []
        (some [Row.mk (some "Data") "" []
          [⟨some "Checking", some "1"⟩, ⟨some "100", none⟩] none []])
        [⟨some "Total Bank Accounts", none⟩, ⟨some "100", none⟩]] :
          Option (List Row)).getD []))
      (listKeys (((injectMissingAccounts (some ⟨["", "Total"],
        some [Row.mk (some "Section") "BankAccounts"
          [⟨some "Bank Accounts", none⟩] []
          (some [Row.mk (some "Data") "" []
            [⟨some "Checking", some "1"⟩, ⟨some "100", none⟩] none []])
          [⟨some "Total Bank Accounts", none⟩, ⟨some "100", none⟩]]⟩)
        [⟨"1", "Checking", "Bank", false, none⟩,
         ⟨"2", "Savings", "Bank", false, none⟩]).getD
          ⟨[], none⟩).rows.getD [])) :=
  merge_preserves_present_rows ⟨["", "Total"],
    some [Row.mk (some "Section") "BankAccounts"
      [⟨some "Bank Accounts", none⟩] []
      (some [Row.mk (some "Data") "" []
        [⟨some "Checking", some "1"⟩, ⟨some "100", none⟩] none []])
      [⟨some "Total Bank Accounts", none⟩, ⟨some "100", none⟩]]⟩
    [⟨"1", "Checking", "Bank", false, none⟩,
     ⟨"2", "Savings", "Bank", false, none⟩] (by decide) _ rfl

/-! ## C4: children of a synthesized section -/

/-- The inserted row is a member of the result of `insertSorted`. -/
theorem mem_insertSorted_self (rows : List Row) (newRow : Row)
    (name : String) : newRow ∈ insertSorted rows newRow name := by
  obtain ⟨l1, l2, _, hi⟩ := insertSorted_split rows newRow name
  rw [hi]
  exact List.mem_append.mpr (Or.inr (List.mem_cons_self _ _))

/-- `insertSorted` keeps every existing member. -/
theorem mem_insertSorted_of_mem (rows : List Row) (newRow r : Row)
    (name : String) (hm : r ∈ rows) : r ∈ insertSorted rows newRow name := by
  obtain ⟨l1, l2, he, hi⟩ := insertSorted_split rows newRow name
  rw [hi]
  rw [he] at hm
  rcases List.mem_append.mp hm with h | h
  · exact List.mem_append.mpr (Or.inl h)
  · exact List.mem_append.mpr (Or.inr (List.mem_cons_of_mem _ h))

/-- `updateMatched` does not change which account ids a well-formed row
matches. -/
theorem rowMatches_updateMatched (nc : Nat) (name : String)
    (recur : List Row → List Account → List Row)
    (children : List Account) (r : Row) (x : String)
    (hwf : wfRow r = true) :
    rowMatches x (updateMatched nc name recur children r) = rowMatches x r := by
  rcases r with ⟨t, g, header, colData, sub, sm⟩
  obtain ⟨hw1, hw2, hw3⟩ := wfRow_parts t g header colData sub sm hwf
  cases sub with
  | none =>
    have hh : header = [] := by
      simpa [List.isEmpty_iff] using hw2
    subst hh
    cases colData <;>
      simp [updateMatched, promoteRow, Row.subRows, Row.setSubRows,
        Row.header, Row.colData, Row.group, rowMatches, firstId]
  | some l =>
    simp only [updateMatched, Row.subRows, Option.isNone_some,
      Bool.false_eq_true, if_false, Row.setSubRows, rowMatches,
      Row.header, Row.colData]

/-- A matching row survives `updateFirstMatch` when the update preserves
match sets. -/
theorem exists_match_updateFirstMatch (p : Row → Bool) (f : Row → Row)
    (L : List Row) (x : String)
    (hf : ∀ r, r ∈ L → wfRow r = true →
      rowMatches x (f r) = rowMatches x r)
    (hwf : wfRows L = true)
    (h : ∃ r ∈ L, rowMatches x r = true) :
    ∃ r2 ∈ updateFirstMatch p f L, rowMatches x r2 = true := by
  induction L with
  | nil => simpa using h
  | cons r rest ih =>
    rw [wfRows_cons, Bool.and_eq_true] at hwf
    by_cases hp : p r
    · obtain ⟨r0, hm, hx⟩ := h
      rcases List.mem_cons.mp hm with rfl | hm2
      · refine ⟨f r0, ?_, ?_⟩
        · simp [updateFirstMatch, hp]
        · rw [hf r0 (List.mem_cons_self _ _) hwf.1]
          exact hx
      · exact ⟨r0, by simp [updateFirstMatch, hp, List.mem_cons_of_mem, hm2],
          hx⟩
    · obtain ⟨r0, hm, hx⟩ := h
      rcases List.mem_cons.mp hm with rfl | hm2
      · exact ⟨r0, by simp [updateFirstMatch, hp], hx⟩
      · obtain ⟨r2, hm2b, hx2⟩ := ih
          (fun r3 h3 => hf r3 (List.mem_cons_of_mem r h3)) hwf.2
          ⟨r0, hm2, hx⟩
        exact ⟨r2, by simp [updateFirstMatch, hp, List.mem_cons_of_mem, hm2b],
          hx2⟩

/-- A matching row survives injection (over a well-formed list). -/
theorem injectIntoRows_match_mono (n : Nat) (coa : List Account) (nc : Nat)
    (present : List String) :
    ∀ (L : List Row) (as : List Account) (x : String), wfRows L = true →
      (∃ r ∈ L, rowMatches x r = true) →
      ∃ r2 ∈ injectIntoRows coa nc present n L as, rowMatches x r2 = true := by
  induction n with
  | zero =>
    intro L as x hwf h
    rw [injectIntoRows_zero]
    exact h
  | succ n ihn =>
    intro L as
    induction as generalizing L with
    | nil =>
      intro x hwf h
      rw [injectIntoRows_nil]
      exact h
    | cons a rest iha =>
      intro x hwf h
      rw [injectIntoRows_cons]
      have hstepwf := (injectStep_keys n coa nc present L a hwf
        (fun L' as' hw => injectIntoRows_keys n coa nc present L' as' hw)).1
      refine iha _ x hstepwf ?_
      by_cases hp : a.id ∈ present
      · by_cases hch : (childrenOf coa a.id).isEmpty
        · simpa [injectStep, hp, hch] using h
        · have := exists_match_updateFirstMatch (rowMatches a.id)
            (updateMatched nc a.name (injectIntoRows coa nc present n)
              (childrenOf coa a.id)) L x
            (fun r _ hw => rowMatches_updateMatched nc a.name _ _ r x hw)
            hwf h
          simpa [injectStep, hp, hch] using this
      · by_cases hch : (childrenOf coa a.id).isEmpty
        · obtain ⟨r0, hm, hx⟩ := h
          exact ⟨r0, by simpa [injectStep, hp, hch] using
            mem_insertSorted_of_mem L (mkDataRow a nc) r0 a.name hm, hx⟩
        · obtain ⟨r0, hm, hx⟩ := h
          exact ⟨r0, by simpa [injectStep, hp, hch] using
            mem_insertSorted_of_mem L _ r0 a.name hm, hx⟩

/-- Every account of the list that is absent from the present-id set gets a
row matching its id in the injection result (fuel positive). -/
theorem injectIntoRows_inserts_absent (n : Nat) (coa : List Account)
    (nc : Nat) (present : List String) :
    ∀ (L : List Row) (as : List Account) (c : Account), wfRows L = true →
      c ∈ as → c.id ∉ present →
      ∃ r ∈ injectIntoRows coa nc present (n + 1) L as,
        rowMatches c.id r = true := by
  intro L as
  induction as generalizing L with
  | nil => intro c _ hm; simp at hm
  | cons a rest iha =>
    intro c hwf hm hab
    rw [injectIntoRows_cons]
    have hstepwf := (injectStep_keys n coa nc present L a hwf
      (fun L' as' hw => injectIntoRows_keys n coa nc present L' as' hw)).1
    rcases List.mem_cons.mp hm with rfl | hm2
    · refine injectIntoRows_match_mono (n + 1) coa nc present _ rest c.id
        hstepwf ?_
      have hp : ¬ c.id ∈ present := hab
      by_cases hch : (childrenOf coa c.id).isEmpty
      · refine ⟨mkDataRow c nc, ?_, ?_⟩
        · simpa [injectStep, hp, hch] using
            mem_insertSorted_self L (mkDataRow c nc) c.name
        · simp [rowMatches, mkDataRow, makeZeroColData, firstId, Row.header,
            Row.colData]
      · refine ⟨mkSectionRow c nc (injectIntoRows coa nc present n []
          (childrenOf coa c.id)), ?_, ?_⟩
        · simpa [injectStep, hp, hch] using
            mem_insertSorted_self L _ c.name
        · simp [rowMatches, mkSectionRow, makeZeroColData, firstId,
            Row.header, Row.colData]
    · exact iha _ c hstepwf hm2 hab

/-- `collectPresentIds` distributes over append. -/
theorem collect_append (l1 l2 : List Row) :
    collectPresentIds (l1 ++ l2) = collectPresentIds l1 ++ collectPresentIds l2 := by
  induction l1 with
  | nil => rfl
  | cons r rest ih => simp [collectPresentIds, ih]

/-- Unfolding `collectRow` on a constructor. -/
theorem collectRow_eq (t : Option String) (g : String)
    (header colData : List Cell) (sub : Option (List Row)) (sm : List Cell) :
    collectRow (.mk t g header colData sub sm) =
      (firstTruthyId colData).toList ++ (firstTruthyId header).toList ++
        collectSub sub := rfl

/-- New ids in an `updateMatched` row come from its own cells or are absent
from the present set. -/
theorem collectRow_updateMatched (n : Nat) (coa : List Account) (nc : Nat)
    (present : List String) (name : String) (children : List Account)
    (r : Row) (x : String)
    (ihn : ∀ (L' : List Row) (as' : List Account),
      x ∈ collectPresentIds (injectIntoRows coa nc present n L' as') →
      x ∈ collectPresentIds L' ∨ x ∉ present)
    (h : x ∈ collectRow (updateMatched nc name
      (injectIntoRows coa nc present n) children r)) :
    x ∈ collectRow r ∨ x ∉ present := by
  rcases r with ⟨t, g, header, colData, sub, sm⟩
  cases sub with
  | none =>
    rw [show updateMatched nc name (injectIntoRows coa nc present n) children
      (Row.mk t g header colData none sm) =
      Row.mk (some "Section") g colData []
        (some (injectIntoRows coa nc present n [] children))
        (makeZeroColData ("Total " ++ name) "" nc) from rfl] at h
    rw [collectRow_eq] at h
    rw [collectRow_eq]
    rcases List.mem_append.mp h with h1 | h2
    · rcases List.mem_append.mp h1 with h3 | h4
      · simp [firstTruthyId, firstId] at h3
      · exact Or.inl (List.mem_append.mpr (Or.inl
          (List.mem_append.mpr (Or.inl h4))))
    · rcases ihn [] children (by simpa using h2) with h3 | h3
      · simp [collectPresentIds] at h3
      · exact Or.inr h3
  | some l =>
    rw [show updateMatched nc name (injectIntoRows coa nc present n) children
      (Row.mk t g header colData (some l) sm) =
      Row.mk t g header colData
        (some (injectIntoRows coa nc present n l children)) sm from rfl] at h
    rw [collectRow_eq] at h
    rw [collectRow_eq]
    rcases List.mem_append.mp h with h1 | h2
    · exact Or.inl (List.mem_append.mpr (Or.inl h1))
    · rcases ihn l children (by simpa using h2) with h3 | h3
      · exact Or.inl (List.mem_append.mpr (Or.inr (by simpa using h3)))
      · exact Or.inr h3

/-- New ids after `updateFirstMatch` come from the original rows or satisfy
the escape predicate of the row update. -/
theorem collect_updateFirstMatch (p : Row → Bool) (f : Row → Row)
    (L : List Row) (x : String) (P : Prop)
    (hf : ∀ r, r ∈ L → x ∈ collectRow (f r) → x ∈ collectRow r ∨ P)
    (h : x ∈ collectPresentIds (updateFirstMatch p f L)) :
    x ∈ collectPresentIds L ∨ P := by
  induction L with
  | nil => exact Or.inl (by simpa [updateFirstMatch] using h)
  | cons r rest ih =>
    by_cases hp : p r
    · simp only [updateFirstMatch, hp, if_true] at h
      rw [show collectPresentIds (f r :: rest) =
        collectRow (f r) ++ collectPresentIds rest from rfl] at h
      rw [show collectPresentIds (r :: rest) =
        collectRow r ++ collectPresentIds rest from rfl]
      rcases List.mem_append.mp h with h1 | h2
      · rcases hf r (List.mem_cons_self _ _) h1 with h3 | h3
        · exact Or.inl (List.mem_append.mpr (Or.inl h3))
        · exact Or.inr h3
      · exact Or.inl (List.mem_append.mpr (Or.inr h2))
    · simp only [updateFirstMatch, hp, if_false, Bool.false_eq_true] at h
      rw [show collectPresentIds (r :: updateFirstMatch p f rest) =
        collectRow r ++ collectPresentIds (updateFirstMatch p f rest)
        from rfl] at h
      rw [show collectPresentIds (r :: rest) =
        collectRow r ++ collectPresentIds rest from rfl]
      rcases List.mem_append.mp h with h1 | h2
      · exact Or.inl (List.mem_append.mpr (Or.inl h1))
      · rcases ih (fun r2 hm => hf r2 (List.mem_cons_of_mem r hm)) h2 with
          h3 | h3
        · exact Or.inl (List.mem_append.mpr (Or.inr h3))
        · exact Or.inr h3

/-- Ids appearing after injection either already appeared or belong to
accounts absent from the present-id set. -/
theorem injectIntoRows_collect_new (n : Nat) (coa : List Account) (nc : Nat)
    (present : List String) :
    ∀ (L : List Row) (as : List Account) (x : String),
      x ∈ collectPresentIds (injectIntoRows coa nc present n L as) →
      x ∈ collectPresentIds L ∨ x ∉ present := by
  induction n with
  | zero =>
    intro L as x h
    rw [injectIntoRows_zero] at h
    exact Or.inl h
  | succ n ihn =>
    intro L as
    induction as generalizing L with
    | nil =>
      intro x h
      rw [injectIntoRows_nil] at h
      exact Or.inl h
    | cons a rest iha =>
      intro x h
      rw [injectIntoRows_cons] at h
      rcases iha _ x h with h1 | h1
      case inr => exact Or.inr h1
      -- one step
      by_cases hp : a.id ∈ present
      · by_cases hch : (childrenOf coa a.id).isEmpty
        · rw [show injectStep coa nc present (injectIntoRows coa nc present n)
            L a = L by simp [injectStep, hp, hch]] at h1
          exact Or.inl h1
        · rw [show injectStep coa nc present (injectIntoRows coa nc present n)
            L a = updateFirstMatch (rowMatches a.id)
              (updateMatched nc a.name (injectIntoRows coa nc present n)
                (childrenOf coa a.id)) L
            by simp [injectStep, hp, hch]] at h1
          exact collect_updateFirstMatch _ _ L x (x ∉ present)
            (fun r _ hc => collectRow_updateMatched n coa nc present a.name
              (childrenOf coa a.id) r x (fun L' as' hc2 => ihn L' as' x hc2)
              hc) h1
      · by_cases hch : (childrenOf coa a.id).isEmpty
        · rw [show injectStep coa nc present (injectIntoRows coa nc present n)
            L a = insertSorted L (mkDataRow a nc) a.name
            by simp [injectStep, hp, hch]] at h1
          obtain ⟨l1, l2, he, hi⟩ := insertSorted_split L (mkDataRow a nc)
            a.name
          rw [hi] at h1
          rw [collect_append] at h1
          rcases List.mem_append.mp h1 with h2 | h2
          · exact Or.inl (he ▸ (collect_append l1 l2).symm ▸
              List.mem_append.mpr (Or.inl h2))
          · rw [show collectPresentIds (mkDataRow a nc :: l2) =
              collectRow (mkDataRow a nc) ++ collectPresentIds l2
              from rfl] at h2
            rcases List.mem_append.mp h2 with h3 | h3
            · rw [show collectRow (mkDataRow a nc) =
                (firstTruthyId (makeZeroColData a.name a.id nc)).toList ++
                  [] ++ [] from rfl] at h3
              simp only [List.append_nil] at h3
              by_cases hz : a.id = ""
              · simp [firstTruthyId, firstId, makeZeroColData, hz] at h3
              · simp [firstTruthyId, firstId, makeZeroColData, hz] at h3
                subst h3
                exact Or.inr hp
            · exact Or.inl (he ▸ (collect_append l1 l2).symm ▸
                List.mem_append.mpr (Or.inr h3))
        · rw [show injectStep coa nc present (injectIntoRows coa nc present n)
            L a = insertSorted L (mkSectionRow a nc
              (injectIntoRows coa nc present n [] (childrenOf coa a.id)))
              a.name
            by simp [injectStep, hp, hch]] at h1
          obtain ⟨l1, l2, he, hi⟩ := insertSorted_split L (mkSectionRow a nc
            (injectIntoRows coa nc present n [] (childrenOf coa a.id))) a.name
          rw [hi] at h1
          rw [collect_append] at h1
          rcases List.mem_append.mp h1 with h2 | h2
          · exact Or.inl (he ▸ (collect_append l1 l2).symm ▸
              List.mem_append.mpr (Or.inl h2))
          · rw [show collectPresentIds (mkSectionRow a nc
              (injectIntoRows coa nc present n [] (childrenOf coa a.id))
                :: l2) =
              collectRow (mkSectionRow a nc (injectIntoRows coa nc present n
                [] (childrenOf coa a.id))) ++ collectPresentIds l2
              from rfl] at h2
            rcases List.mem_append.mp h2 with h3 | h3
            · rw [show collectRow (mkSectionRow a nc
                (injectIntoRows coa nc present n [] (childrenOf coa a.id))) =
                (firstTruthyId []).toList ++
                  (firstTruthyId (makeZeroColData a.name a.id nc)).toList ++
                  collectPresentIds (injectIntoRows coa nc present n []
                    (childrenOf coa a.id)) from rfl] at h3
              rcases List.mem_append.mp h3 with h4 | h4
              · rcases List.mem_append.mp h4 with h5 | h5
                · simp [firstTruthyId, firstId] at h5
                · by_cases hz : a.id = ""
                  · simp [firstTruthyId, firstId, makeZeroColData, hz] at h5
                  · simp [firstTruthyId, firstId, makeZeroColData, hz] at h5
                    subst h5
                    exact Or.inr hp
              · rcases ihn [] (childrenOf coa a.id) x h4 with h5 | h5
                · simp [collectPresentIds] at h5
                · exact Or.inr h5
            · exact Or.inl (he ▸ (collect_append l1 l2).symm ▸
                List.mem_append.mpr (Or.inr h3))

/-- C4 (amended): the section synthesized for a missing parent account
builds its children by recursive injection with the SAME present-id set
(not an empty context): children absent from the whole report appear under
it, while a child whose id is present elsewhere in the report contributes
nothing under the new section. -/
theorem synthesized_section_children (coa : List Account) (nc : Nat)
    (present : List String) (n : Nat) (a : Account) (L : List Row)
    (hab : a.id ∉ present)
    (hch : (childrenOf coa a.id).isEmpty = false) :
    injectStep coa nc present (injectIntoRows coa nc present (n + 1)) L a =
      insertSorted L (mkSectionRow a nc (injectIntoRows coa nc present (n + 1)
        [] (childrenOf coa a.id))) a.name ∧
    (∀ c ∈ childrenOf coa a.id, c.id ∉ present →
      ∃ r ∈ (mkSectionRow a nc (injectIntoRows coa nc present (n + 1) []
        (childrenOf coa a.id))).subRows.getD [],
        rowMatches c.id r = true) ∧
    (∀ c ∈ childrenOf coa a.id, c.id ∈ present →
      c.id ∉ collectPresentIds ((mkSectionRow a nc (injectIntoRows coa nc
        present (n + 1) [] (childrenOf coa a.id))).subRows.getD [])) := by
  refine ⟨by simp [injectStep, hab, hch], ?_, ?_⟩
  · intro c hm hc
    have h := injectIntoRows_inserts_absent n coa nc present []
      (childrenOf coa a.id) c rfl hm hc
    simpa [mkSectionRow, Row.subRows] using h
  · intro c hm hc hmem
    have h := injectIntoRows_collect_new (n + 1) coa nc present []
      (childrenOf coa a.id) c.id
      (by simpa [mkSectionRow, Row.subRows] using hmem)
    rcases h with h | h
    · simpa [collectPresentIds] using h
    · exact h hc

/-- Counterexample to C4 as stated: account `Alpha` (id 1) is missing and
has child `Bee` (id 2), but `Bee` is already present elsewhere in the
report; because injection recurses with the original present-id set (not
an empty context), the synthesized `Alpha` section gets an empty children
list, and no zero-balance `Bee` row appears under it. -/
theorem inject_empty_context_cex :
    injectMissingAccounts (some ⟨["c1"],
      some [.mk (some "Section") "Income" [⟨some "Income", none⟩] []
        (some [.mk (some "Data") "" [] [⟨some "Bee", some "2"⟩] none []])
        []]⟩)
      [⟨"1", "Alpha", "Income", false, none⟩,
       ⟨"2", "Bee", "Income", true, some "1"⟩]
    = some ⟨["c1"],
      some [.mk (some "Section") "Income" [⟨some "Income", none⟩] []
        (some [.mk (some "Section") "" [⟨some "Alpha", some "1"⟩] []
            (some []) [⟨some "Total Alpha", some ""⟩],
          .mk (some "Data") "" [] [⟨some "Bee", some "2"⟩] none []]) []]⟩
    ∧ "2" ∉ collectPresentIds
        [(.mk (some "Section") "" [⟨some "Alpha", some "1"⟩] [] (some [])
          [⟨some "Total Alpha", some ""⟩] : Row)] :=
  ⟨rfl, by decide⟩

/-- Witness for `synthesized_section_children`: `Zed` (id 3, absent) shows
up under the synthesized `Alpha` section while `Bee` (id 2, present) is
skipped. -/
theorem synthesized_section_children_witness :
    (∃ r ∈ (mkSectionRow ⟨"1", "Alpha", "Income", false, none⟩ 1
      (injectIntoRows [⟨"1", "Alpha", "Income", false, none⟩,
          ⟨"2", "Bee", "Income", true, some "1"⟩,
          ⟨"3", "Zed", "Income", true, some "1"⟩] 1 ["2"] 1 []
        (childrenOf [⟨"1", "Alpha", "Income", false, none⟩,
          ⟨"2", "Bee", "Income", true, some "1"⟩,
          ⟨"3", "Zed", "Income", true, some "1"⟩] "1"))).subRows.getD [],
      rowMatches "3" r = true) ∧
    "2" ∉ collectPresentIds ((mkSectionRow
      ⟨"1", "Alpha", "Income", false, none⟩ 1
      (injectIntoRows [⟨"1", "Alpha", "Income", false, none⟩,
          ⟨"2", "Bee", "Income", true, some "1"⟩,
          ⟨"3", "Zed", "Income", true, some "1"⟩] 1 ["2"] 1 []
        (childrenOf [⟨"1", "Alpha", "Income", false, none⟩,
          ⟨"2", "Bee", "Income", true, some "1"⟩,
          ⟨"3", "Zed", "Income", true, some "1"⟩] "1"))).subRows.getD []) :=
  ⟨(synthesized_section_children
      [⟨"1", "Alpha", "Income", false, none⟩,
       ⟨"2", "Bee", "Income", true, some "1"⟩,
       ⟨"3", "Zed", "Income", true, some "1"⟩] 1 ["2"] 0
      ⟨"1", "Alpha", "Income", false, none⟩ [] (by decide) (by decide)).2.1
    ⟨"3", "Zed", "Income", true, some "1"⟩ (by decide) (by decide),
   (synthesized_section_children
      [⟨"1", "Alpha", "Income", false, none⟩,
       ⟨"2", "Bee", "Income", true, some "1"⟩,
       ⟨"3", "Zed", "Income", true, some "1"⟩] 1 ["2"] 0
      ⟨"1", "Alpha", "Income", false, none⟩ [] (by decide) (by decide)).2.2
    ⟨"2", "Bee", "Income", true, some "1"⟩ (by decide) (by decide)⟩

/-! ## C1: idempotence of the merge -/

/-- Counterexample to C1 as stated: an account whose `Id` is the empty
string is never collected into the present-id set (the collector tests the
id for truthiness), so a second merge inserts its zero row again and the
flattened output grows. -/
theorem merge_idempotent_cex :
    parseReportToRows (injectMissingAccounts (injectMissingAccounts
      (some ⟨["c1"], some [.mk (some "Section") "Income"
        [⟨some "Income", none⟩] [] (some []) []]⟩)
      [⟨"", "Orphan", "Income", false, none⟩])
      [⟨"", "Orphan", "Income", false, none⟩]) "*" "*" ≠
    parseReportToRows (injectMissingAccounts
      (some ⟨["c1"], some [.mk (some "Section") "Income"
        [⟨some "Income", none⟩] [] (some []) []]⟩)
      [⟨"", "Orphan", "Income", false, none⟩]) "*" "*" := by decide

/-- `setSubRows` with the row's own sub-rows is the identity. -/
theorem setSubRows_self (r : Row) (v : Option (List Row))
    (h : r.subRows = v) : Row.setSubRows r v = r := by
  cases r
  simp only [Row.subRows] at h
  simp [Row.setSubRows, h]

/-- A well-formed row matches at most one account id. -/
theorem wfRow_single_match (r : Row) (x y : String)
    (hwf : wfRow r = true) (hx : rowMatches x r = true)
    (hy : rowMatches y r = true) : x = y := by
  rcases r with ⟨t, g, header, colData, sub, sm⟩
  obtain ⟨hw1, _, _⟩ := wfRow_parts t g header colData sub sm hwf
  simp only [rowMatches, Row.header, Row.colData, Bool.or_eq_true,
    beq_iff_eq] at hx hy
  rcases header with _ | ⟨c, cs⟩ <;> rcases colData with _ | ⟨c2, cs2⟩
  · simp [firstId] at hx
  · simp only [firstId] at hx hy
    rcases hx with hx | hx <;> rcases hy with hy | hy <;> simp_all
  · simp only [firstId] at hx hy
    rcases hx with hx | hx <;> rcases hy with hy | hy <;> simp_all
  · simp at hw1

/-- What the injected data row matches. -/
theorem rowMatches_mkDataRow (a : Account) (nc : Nat) (x : String) :
    rowMatches x (mkDataRow a nc) = (a.id == x) := by
  simp [rowMatches, mkDataRow, makeZeroColData, firstId, Row.header,
    Row.colData]

/-- What the injected section row matches. -/
theorem rowMatches_mkSectionRow (a : Account) (nc : Nat) (l : List Row)
    (x : String) :
    rowMatches x (mkSectionRow a nc l) = (a.id == x) := by
  simp [rowMatches, mkSectionRow, makeZeroColData, firstId, Row.header,
    Row.colData]

/-- The sub-rows of an `updateMatched` row. -/
theorem updateMatched_subRows (nc : Nat) (name : String)
    (recur : List Row → List Account → List Row)
    (children : List Account) (r : Row) :
    (updateMatched nc name recur children r).subRows =
      some (recur ((if r.subRows.isNone then promoteRow r name nc
        else r).subRows.getD []) children) := by
  rcases r with ⟨t, g, header, colData, sub, sm⟩
  cases sub <;> rfl

/-- A nonempty matched id appears among a row's collected ids. -/
theorem matches_mem_collectRow (r : Row) (x : String) (hx : x ≠ "")
    (h : rowMatches x r = true) : x ∈ collectRow r := by
  rcases r with ⟨t, g, header, colData, sub, sm⟩
  rw [collectRow_eq]
  simp only [rowMatches, Row.header, Row.colData, Bool.or_eq_true,
    beq_iff_eq] at h
  rcases h with h | h
  · rcases header with _ | ⟨c, cs⟩
    · simp [firstId] at h
    · simp only [firstId] at h
      refine List.mem_append.mpr (Or.inl (List.mem_append.mpr (Or.inr ?_)))
      simp [firstTruthyId, firstId, h, hx.symm]
      simp [← h, hx]
  · rcases colData with _ | ⟨c, cs⟩
    · simp [firstId] at h
    · simp only [firstId] at h
      refine List.mem_append.mpr (Or.inl (List.mem_append.mpr (Or.inl ?_)))
      simp [firstTruthyId, firstId, h, hx.symm]
      simp [← h, hx]

/-- Collected ids of a member row are collected ids of the list. -/
theorem collectRow_mem_sub (l : List Row) (r : Row) (y : String)
    (hm : r ∈ l) (hy : y ∈ collectRow r) : y ∈ collectPresentIds l := by
  induction l with
  | nil => simp at hm
  | cons r0 rest ih =>
    rw [show collectPresentIds (r0 :: rest) =
      collectRow r0 ++ collectPresentIds rest from rfl]
    rcases List.mem_cons.mp hm with rfl | hm2
    · exact List.mem_append.mpr (Or.inl hy)
    · exact List.mem_append.mpr (Or.inr (ih hm2))

/-- A row of `updateFirstMatch` is an original row or the update of a
matched original row. -/
theorem mem_updateFirstMatch (p : Row → Bool) (f : Row → Row) (L : List Row)
    (r2 : Row) (h : r2 ∈ updateFirstMatch p f L) :
    r2 ∈ L ∨ ∃ r ∈ L, p r = true ∧ r2 = f r := by
  induction L with
  | nil => simp [updateFirstMatch] at h
  | cons r rest ih =>
    by_cases hp : p r
    · simp only [updateFirstMatch, hp, if_true] at h
      rcases List.mem_cons.mp h with rfl | h2
      · exact Or.inr ⟨r, List.mem_cons_self _ _, hp, rfl⟩
      · exact Or.inl (List.mem_cons_of_mem _ h2)
    · simp only [updateFirstMatch, hp, if_false, Bool.false_eq_true] at h
      rcases List.mem_cons.mp h with rfl | h2
      · exact Or.inl (List.mem_cons_self _ _)
      · rcases ih h2 with h3 | ⟨r0, hm0, hp0, he0⟩
        · exact Or.inl (List.mem_cons_of_mem _ h3)
        · exact Or.inr ⟨r0, List.mem_cons_of_mem _ hm0, hp0, he0⟩

/-- `updateFirstMatch` with no matching row is the identity. -/
theorem updateFirstMatch_of_none (p : Row → Bool) (f : Row → Row)
    (L : List Row) (h : L.find? p = none) : updateFirstMatch p f L = L := by
  induction L with
  | nil => rfl
  | cons r rest ih =>
    rw [List.find?_cons] at h
    by_cases hp : p r
    · simp [hp] at h
    · simp only [hp, Bool.false_eq_true, if_false] at h ⊢
      simp [updateFirstMatch, hp, ih h]

/-- `updateFirstMatch` whose update fixes the found row is the identity. -/
theorem updateFirstMatch_of_fix (p : Row → Bool) (f : Row → Row)
    (L : List Row) (r : Row) (h : L.find? p = some r) (hf : f r = r) :
    updateFirstMatch p f L = L := by
  induction L with
  | nil => simp at h
  | cons r0 rest ih =>
    rw [List.find?_cons] at h
    by_cases hp : p r0
    · simp only [hp, if_true, Option.some_inj] at h
      subst h
      simp [updateFirstMatch, hp, hf]
    · simp only [hp, Bool.false_eq_true, if_false] at h
      simp [updateFirstMatch, hp, ih h]

/-- The found row of `updateFirstMatch` is the update of the original
found row, provided the update still satisfies the predicate. -/
theorem find?_updateFirstMatch_self (p : Row → Bool) (f : Row → Row)
    (L : List Row) (r : Row) (h : L.find? p = some r)
    (hf : p (f r) = true) :
    (updateFirstMatch p f L).find? p = some (f r) := by
  induction L with
  | nil => simp at h
  | cons r0 rest ih =>
    rw [List.find?_cons] at h
    by_cases hp : p r0
    · simp only [hp, if_true, Option.some_inj] at h
      subst h
      simp [updateFirstMatch, hp, List.find?_cons, hf]
    · simp only [hp, Bool.false_eq_true, if_false] at h
      simp [updateFirstMatch, hp, List.find?_cons, ih h]

/-- Rows matching a different id are found unchanged after
`updateFirstMatch` over a well-formed list. -/
theorem find?_updateFirstMatch_other (b : String) (f : Row → Row)
    (L : List Row) (x : String) (hxb : x ≠ b)
    (hwf : wfRows L = true)
    (hf : ∀ r, r ∈ L → wfRow r = true →
      rowMatches x (f r) = rowMatches x r) :
    (updateFirstMatch (rowMatches b) f L).find? (rowMatches x) =
      L.find? (rowMatches x) := by
  induction L with
  | nil => rfl
  | cons r rest ih =>
    rw [wfRows_cons, Bool.and_eq_true] at hwf
    by_cases hp : rowMatches b r
    · have hxr : rowMatches x r = false := by
        by_cases hx : rowMatches x r
        · exact absurd (wfRow_single_match r x b hwf.1 hx hp) hxb
        · simpa using hx
      have hxfr : rowMatches x (f r) = false := by
        rw [hf r (List.mem_cons_self _ _) hwf.1]
        exact hxr
      simp [updateFirstMatch, hp, List.find?_cons, hxr, hxfr]
    · simp only [updateFirstMatch, hp, if_false, Bool.false_eq_true]
      rw [List.find?_cons, List.find?_cons]
      by_cases hx : rowMatches x r
      · simp [hx]
      · simp only [hx, Bool.false_eq_true, if_false]
        exact ih hwf.2 (fun r2 h2 => hf r2 (List.mem_cons_of_mem r h2))

/-- Rows not matching the inserted row's ids are found unchanged after
`insertSorted`. -/
theorem find?_insertSorted_other (L : List Row) (newRow : Row)
    (name x : String) (hnew : rowMatches x newRow = false) :
    (insertSorted L newRow name).find? (rowMatches x) =
      L.find? (rowMatches x) := by
  induction L with
  | nil => simp [insertSorted, List.find?_cons, hnew]
  | cons r rest ih =>
    by_cases hc : ciStrLt name (getRowName r)
    · simp [insertSorted, hc, List.find?_cons, hnew]
    · simp only [insertSorted, hc, if_false, Bool.false_eq_true]
      rw [List.find?_cons, List.find?_cons]
      by_cases hx : rowMatches x r
      · simp [hx]
      · simp only [hx, Bool.false_eq_true, if_false]
        exact ih

/-- When no existing row matches, the inserted row is the one found. -/
theorem find?_insertSorted_self (L : List Row) (newRow : Row)
    (name x : String) (hnone : L.find? (rowMatches x) = none)
    (hnew : rowMatches x newRow = true) :
    (insertSorted L newRow name).find? (rowMatches x) = some newRow := by
  induction L with
  | nil => simp [insertSorted, List.find?_cons, hnew]
  | cons r rest ih =>
    rw [List.find?_cons] at hnone
    by_cases hx : rowMatches x r
    · simp [hx] at hnone
    · simp only [hx, Bool.false_eq_true, if_false] at hnone
      by_cases hc : ciStrLt name (getRowName r)
      · simp [insertSorted, hc, List.find?_cons, hnew]
      · simp only [insertSorted, hc, if_false, Bool.false_eq_true]
        rw [List.find?_cons]
        simp only [hx, Bool.false_eq_true, if_false]
        exact ih hnone

/-- `insName` is a permutation of consing. -/
theorem insName_perm (a : Account) (l : List Account) :
    List.Perm (insName a l) (a :: l) := by
  induction l with
  | nil => exact List.Perm.refl _
  | cons b t ih =>
    by_cases hc : pyStrLt b.name a.name
    · simp only [insName, hc, if_true]
      exact List.Perm.trans (List.Perm.cons b ih) (List.Perm.swap a b t)
    · simp [insName, hc]

/-- `pySortByName` permutes its input. -/
theorem pySortByName_perm (l : List Account) :
    List.Perm (pySortByName l) l := by
  induction l with
  | nil => exact List.Perm.refl _
  | cons a t ih =>
    exact List.Perm.trans (insName_perm a (pySortByName t))
      (List.Perm.cons a ih)

/-- Members of a child bucket belong to the account list. -/
theorem childrenOf_mem (coa : List Account) (pid : String) (b : Account)
    (h : b ∈ childrenOf coa pid) : b ∈ coa := by
  have h2 := (pySortByName_perm _).mem_iff.mp h
  exact List.mem_of_mem_filter h2

/-- Ids of a child bucket have no duplicates when the account list has
none. -/
theorem childrenOf_nodup (coa : List Account) (pid : String)
    (h : (coa.map Account.id).Nodup) :
    ((childrenOf coa pid).map Account.id).Nodup := by
  have hperm : List.Perm ((childrenOf coa pid).map Account.id)
      ((coa.filter (fun a =>
        match effParent a with
        | some p => !(p == "") && (coa.map Account.id).contains p && p == pid
        | none => false)).map Account.id) :=
    List.Perm.map _ (pySortByName_perm _)
  refine hperm.nodup_iff.mpr ?_
  exact List.Nodup.sublist (List.Sublist.map Account.id
    (List.filter_sublist coa)) h

/-- Members of a top-level list belong to the filtered accounts. -/
theorem topLevelOf_mem (sa : List Account) (b : Account)
    (h : b ∈ topLevelOf sa) : b ∈ sa := by
  have h2 := (pySortByName_perm _).mem_iff.mp h
  exact List.mem_of_mem_filter h2

/-- Ids of a top-level list have no duplicates when the section list has
none. -/
theorem topLevelOf_nodup (sa : List Account)
    (h : (sa.map Account.id).Nodup) :
    ((topLevelOf sa).map Account.id).Nodup := by
  have hperm : List.Perm ((topLevelOf sa).map Account.id)
      ((sa.filter (fun a =>
        match effParent a with
        | some p => p == "" || !(sa.map Account.id).contains p
        | none => true)).map Account.id) :=
    List.Perm.map _ (pySortByName_perm _)
  refine hperm.nodup_iff.mpr ?_
  exact List.Nodup.sublist (List.Sublist.map Account.id
    (List.filter_sublist sa)) h

/-- Collected ids are not lost by `updateMatched` on a well-formed row,
provided the recursion does not lose them. -/
theorem collectRow_updateMatched_mono (n : Nat) (coa : List Account)
    (nc : Nat) (present : List String) (name : String)
    (children : List Account) (r : Row) (x : String) (hwf : wfRow r = true)
    (ihn : ∀ (L' : List Row) (as' : List Account), wfRows L' = true →
      x ∈ collectPresentIds L' →
      x ∈ collectPresentIds (injectIntoRows coa nc present n L' as'))
    (h : x ∈ collectRow r) :
    x ∈ collectRow (updateMatched nc name
      (injectIntoRows coa nc present n) children r) := by
  rcases r with ⟨t, g, header, colData, sub, sm⟩
  obtain ⟨hw1, hw2, hw3⟩ := wfRow_parts t g header colData sub sm hwf
  cases sub with
  | none =>
    have hh : header = [] := by
      simpa [List.isEmpty_iff] using hw2
    subst hh
    rw [show updateMatched nc name (injectIntoRows coa nc present n) children
      (Row.mk t g [] colData none sm) =
      Row.mk (some "Section") g colData []
        (some (injectIntoRows coa nc present n [] children))
        (makeZeroColData ("Total " ++ name) "" nc) from rfl]
    rw [collectRow_eq] at h
    rw [collectRow_eq]
    rcases List.mem_append.mp h with h1 | h2
    · rcases List.mem_append.mp h1 with h3 | h4
      · exact List.mem_append.mpr (Or.inl (List.mem_append.mpr (Or.inr h3)))
      · simp [firstTruthyId, firstId] at h4
    · simp [collectSub] at h2
  | some l =>
    rw [show updateMatched nc name (injectIntoRows coa nc present n) children
      (Row.mk t g header colData (some l) sm) =
      Row.mk t g header colData
        (some (injectIntoRows coa nc present n l children)) sm from rfl]
    rw [collectRow_eq] at h
    rw [collectRow_eq]
    rcases List.mem_append.mp h with h1 | h2
    · exact List.mem_append.mpr (Or.inl h1)
    · refine List.mem_append.mpr (Or.inr ?_)
      have hwl : wfRows l = true := by simpa [wfSub_some] using hw3
      simpa [collectSub] using ihn l children hwl (by simpa [collectSub]
        using h2)

/-- Injection never loses a collected id (over a well-formed list). -/
theorem injectIntoRows_collect_mono (n : Nat) (coa : List Account)
    (nc : Nat) (present : List String) :
    ∀ (L : List Row) (as : List Account), wfRows L = true →
      ∀ x, x ∈ collectPresentIds L →
        x ∈ collectPresentIds (injectIntoRows coa nc present n L as) := by
  induction n with
  | zero =>
    intro L as hwf x h
    rw [injectIntoRows_zero]
    exact h
  | succ n ihn =>
    intro L as
    induction as generalizing L with
    | nil =>
      intro hwf x h
      rw [injectIntoRows_nil]
      exact h
    | cons a rest iha =>
      intro hwf x h
      rw [injectIntoRows_cons]
      have hstepwf := (injectStep_keys n coa nc present L a hwf
        (fun L' as' hw => injectIntoRows_keys n coa nc present L' as' hw)).1
      refine iha _ hstepwf x ?_
      by_cases hp : a.id ∈ present
      · by_cases hch : (childrenOf coa a.id).isEmpty
        · rw [show injectStep coa nc present (injectIntoRows coa nc present n)
            L a = L by simp [injectStep, hp, hch]]
          exact h
        · rw [show injectStep coa nc present (injectIntoRows coa nc present n)
            L a = updateFirstMatch (rowMatches a.id)
              (updateMatched nc a.name (injectIntoRows coa nc present n)
                (childrenOf coa a.id)) L
            by simp [injectStep, hp, hch]]
          -- walk the update
          clear iha hstepwf
          induction L with
          | nil => simpa [collectPresentIds] using h
          | cons r rest2 ihL =>
            rw [wfRows_cons, Bool.and_eq_true] at hwf
            rw [show collectPresentIds (r :: rest2) =
              collectRow r ++ collectPresentIds rest2 from rfl] at h
            by_cases hm : rowMatches a.id r
            · simp only [updateFirstMatch, hm, if_true]
              rw [show collectPresentIds (updateMatched nc a.name
                (injectIntoRows coa nc present n) (childrenOf coa a.id) r
                  :: rest2) =
                collectRow (updateMatched nc a.name
                  (injectIntoRows coa nc present n) (childrenOf coa a.id) r)
                  ++ collectPresentIds rest2 from rfl]
              rcases List.mem_append.mp h with h1 | h2
              · exact List.mem_append.mpr (Or.inl
                  (collectRow_updateMatched_mono n coa nc present a.name
                    (childrenOf coa a.id) r x hwf.1
                    (fun L' as' hw hx => ihn L' as' hw x hx) h1))
              · exact List.mem_append.mpr (Or.inr h2)
            · simp only [updateFirstMatch, hm, if_false, Bool.false_eq_true]
              rw [show collectPresentIds (r :: updateFirstMatch
                (rowMatches a.id) (updateMatched nc a.name
                  (injectIntoRows coa nc present n) (childrenOf coa a.id))
                  rest2) =
                collectRow r ++ collectPresentIds (updateFirstMatch
                  (rowMatches a.id) (updateMatched nc a.name
                    (injectIntoRows coa nc present n) (childrenOf coa a.id))
                    rest2) from rfl]
              rcases List.mem_append.mp h with h1 | h2
              · exact List.mem_append.mpr (Or.inl h1)
              · exact List.mem_append.mpr (Or.inr (ihL hwf.2 h2))
      · by_cases hch : (childrenOf coa a.id).isEmpty
        · rw [show injectStep coa nc present (injectIntoRows coa nc present n)
            L a = insertSorted L (mkDataRow a nc) a.name
            by simp [injectStep, hp, hch]]
          obtain ⟨l1, l2, he, hi⟩ := insertSorted_split L (mkDataRow a nc)
            a.name
          rw [hi, collect_append]
          rw [he, collect_append] at h
          rcases List.mem_append.mp h with h1 | h2
          · exact List.mem_append.mpr (Or.inl h1)
          · refine List.mem_append.mpr (Or.inr ?_)
            rw [show collectPresentIds (mkDataRow a nc :: l2) =
              collectRow (mkDataRow a nc) ++ collectPresentIds l2 from rfl]
            exact List.mem_append.mpr (Or.inr h2)
        · rw [show injectStep coa nc present (injectIntoRows coa nc present n)
            L a = insertSorted L (mkSectionRow a nc
              (injectIntoRows coa nc present n [] (childrenOf coa a.id)))
              a.name
            by simp [injectStep, hp, hch]]
          obtain ⟨l1, l2, he, hi⟩ := insertSorted_split L (mkSectionRow a nc
            (injectIntoRows coa nc present n [] (childrenOf coa a.id))) a.name
          rw [hi, collect_append]
          rw [he, collect_append] at h
          rcases List.mem_append.mp h with h1 | h2
          · exact List.mem_append.mpr (Or.inl h1)
          · refine List.mem_append.mpr (Or.inr ?_)
            rw [show collectPresentIds (mkSectionRow a nc
              (injectIntoRows coa nc present n [] (childrenOf coa a.id))
                :: l2) =
              collectRow (mkSectionRow a nc (injectIntoRows coa nc present n
                [] (childrenOf coa a.id))) ++ collectPresentIds l2 from rfl]
            exact List.mem_append.mpr (Or.inr h2)

mutual
/-- The section walk never loses a collected id (well-formed rows). -/
theorem processSectionRow_collect_mono (coa : List Account)
    (present : List String) (nc fuel : Nat) (s : Row)
    (hwf : wfRow s = true) (x : String) (h : x ∈ collectRow s) :
    x ∈ collectRow (processSectionRow coa present nc fuel s) := by
  match s with
  | .mk t g header colData sub sm =>
    obtain ⟨hw1, hw2, hw3⟩ := wfRow_parts t g header colData sub sm hwf
    cases hg : sectionAccountTypes g with
    | some types =>
      simp only [processSectionRow, hg, Option.elim]
      by_cases hsa : (coa.filter
          (fun a => types.contains a.accountType)).isEmpty
      · simp only [injectMatched, hsa, if_true]
        exact h
      · simp only [injectMatched, hsa, if_false, Bool.false_eq_true,
          Row.setSubRows]
        rw [collectRow_eq] at h
        rw [collectRow_eq]
        rcases List.mem_append.mp h with h1 | h2
        · exact List.mem_append.mpr (Or.inl h1)
        · refine List.mem_append.mpr (Or.inr ?_)
          cases sub with
          | none => simp [collectSub] at h2
          | some l =>
            have hwl : wfRows l = true := by simpa [wfSub_some] using hw3
            simp only [collectSub]
            have := injectIntoRows_collect_mono fuel coa nc present l
              (topLevelOf (coa.filter
                (fun a => types.contains a.accountType))) hwl x
              (by simpa [collectSub] using h2)
            simpa [Row.subRows] using this
    | none =>
      simp only [processSectionRow, hg, Option.elim]
      rw [collectRow_eq] at h
      rw [collectRow_eq]
      rcases List.mem_append.mp h with h1 | h2
      · exact List.mem_append.mpr (Or.inl h1)
      · exact List.mem_append.mpr (Or.inr
          (processSubSections_collect_mono coa present nc fuel sub
            (by simpa using hw3) x h2))

/-- `processSectionRow_collect_mono` on an optional sub-row list. -/
theorem processSubSections_collect_mono (coa : List Account)
    (present : List String) (nc fuel : Nat) (sub : Option (List Row))
    (hwf : wfSub sub = true) (x : String) (h : x ∈ collectSub sub) :
    x ∈ collectSub (processSubSections coa present nc fuel sub) := by
  match sub with
  | none => simpa [collectSub] using h
  | some l =>
    simp only [processSubSections, collectSub]
    exact processSections_collect_mono coa present nc fuel l
      (by simpa [wfSub_some] using hwf) x (by simpa [collectSub] using h)

/-- `processSectionRow_collect_mono` over a list of rows. -/
theorem processSections_collect_mono (coa : List Account)
    (present : List String) (nc fuel : Nat) (rows : List Row)
    (hwf : wfRows rows = true) (x : String)
    (h : x ∈ collectPresentIds rows) :
    x ∈ collectPresentIds (processSections coa present nc fuel rows) := by
  match rows with
  | [] => simpa [collectPresentIds] using h
  | r :: rest =>
    rw [show collectPresentIds (r :: rest) =
      collectRow r ++ collectPresentIds rest from rfl] at h
    rw [show processSections coa present nc fuel (r :: rest) =
      processSectionRow coa present nc fuel r ::
        processSections coa present nc fuel rest from rfl]
    rw [show collectPresentIds (processSectionRow coa present nc fuel r ::
        processSections coa present nc fuel rest) =
      collectRow (processSectionRow coa present nc fuel r) ++
        collectPresentIds (processSections coa present nc fuel rest)
      from rfl]
    rcases List.mem_append.mp h with h1 | h2
    · exact List.mem_append.mpr (Or.inl
        (processSectionRow_collect_mono coa present nc fuel r
          ((Bool.and_eq_true .. |>.mp hwf).1) x h1))
    · exact List.mem_append.mpr (Or.inr
        (processSections_collect_mono coa present nc fuel rest
          ((Bool.and_eq_true .. |>.mp hwf).2) x h2))
end

/-- The second-merge stability predicate: every account of the list is in
the present set `Q`, and when it has children, the row found for it (if
any) has a `Rows` container whose contents are themselves settled for
those children at one fuel less. -/
def Settled (coa : List Account) (Q : List String) :
    Nat → List Row → List Account → Prop
  | 0, _, _ => True
  | n + 1, L, as =>
    ∀ a ∈ as, a.id ∈ Q ∧
      ((childrenOf coa a.id).isEmpty = false →
        ∀ r, L.find? (rowMatches a.id) = some r →
          ∃ l, r.subRows = some l ∧
            Settled coa Q n l (childrenOf coa a.id))

/-- Injecting a settled list with the same present set changes nothing. -/
theorem settled_inject_id (coa : List Account) (nc : Nat) (Q : List String) :
    ∀ (n : Nat) (L : List Row) (as : List Account),
      Settled coa Q n L as → injectIntoRows coa nc Q n L as = L := by
  intro n
  induction n with
  | zero => intro L as _; rfl
  | succ n ihn =>
    intro L as
    induction as generalizing L with
    | nil => intro _; rw [injectIntoRows_nil]
    | cons a rest iha =>
      intro hset
      obtain ⟨haq, hachild⟩ := hset a (List.mem_cons_self _ _)
      have hstep : injectStep coa nc Q (injectIntoRows coa nc Q n) L a
          = L := by
        by_cases hch : (childrenOf coa a.id).isEmpty
        · simp [injectStep, haq, hch]
        · have hupd : updateFirstMatch (rowMatches a.id)
              (updateMatched nc a.name (injectIntoRows coa nc Q n)
                (childrenOf coa a.id)) L = L := by
            cases hfind : L.find? (rowMatches a.id) with
            | none => exact updateFirstMatch_of_none _ _ L hfind
            | some r =>
              obtain ⟨l, hsub, hsettled⟩ := hachild (by simpa using hch)
                r hfind
              refine updateFirstMatch_of_fix _ _ L r hfind ?_
              rw [show updateMatched nc a.name (injectIntoRows coa nc Q n)
                (childrenOf coa a.id) r =
                Row.setSubRows (if r.subRows.isNone
                  then promoteRow r a.name nc else r)
                  (some (injectIntoRows coa nc Q n
                    ((if r.subRows.isNone then promoteRow r a.name nc
                      else r).subRows.getD []) (childrenOf coa a.id)))
                from rfl]
              rw [hsub]
              simp only [Option.isNone_some, Bool.false_eq_true, if_false]
              rw [hsub]
              simp only [Option.getD_some]
              rw [ihn l (childrenOf coa a.id) hsettled]
              exact setSubRows_self r (some l) hsub
          simpa [injectStep, haq, hch] using hupd
      rw [injectIntoRows_cons, hstep]
      exact iha L (fun b hb => hset b (List.mem_cons_of_mem a hb))

/-- The base list passed to the child recursion of `updateMatched`, when
the matched row has no `Rows` container. -/
theorem matched_base_none (r : Row) (name : String) (nc : Nat)
    (h : r.subRows = none) :
    (if r.subRows.isNone then promoteRow r name nc else r).subRows.getD []
      = ([] : List Row) := by
  rw [h]
  rfl

/-- The base list passed to the child recursion of `updateMatched`, when
the matched row has a `Rows` container. -/
theorem matched_base_some (r : Row) (l : List Row) (name : String)
    (nc : Nat) (h : r.subRows = some l) :
    (if r.subRows.isNone then promoteRow r name nc else r).subRows.getD []
      = l := by
  simp only [h, Option.isNone_some, Bool.false_eq_true, if_false,
    Option.getD_some]

/-- Ids collected in a row's sub-rows are collected in the row. -/
theorem collectSub_sub_collectRow (r : Row) (l : List Row)
    (h : r.subRows = some l) (x : String)
    (hx : x ∈ collectPresentIds l) : x ∈ collectRow r := by
  rcases r with ⟨t, g, header, colData, sub, sm⟩
  simp only [Row.subRows] at h
  subst h
  rw [collectRow_eq]
  exact List.mem_append.mpr (Or.inr (by simpa [collectSub] using hx))

/-- The sub-rows of a well-formed row are well-formed. -/
theorem wfRow_sub_some (r : Row) (l : List Row) (hwf : wfRow r = true)
    (h : r.subRows = some l) : wfRows l = true := by
  rcases r with ⟨t, g, header, colData, sub, sm⟩
  simp only [Row.subRows] at h
  subst h
  obtain ⟨_, _, hw3⟩ := wfRow_parts t g header colData (some l) sm hwf
  simpa [wfSub_some] using hw3

/-- A row of an `insertSorted` result is an original row or the new row. -/
theorem mem_insertSorted (L : List Row) (newRow r2 : Row) (name : String)
    (h : r2 ∈ insertSorted L newRow name) : r2 ∈ L ∨ r2 = newRow := by
  obtain ⟨l1, l2, he, hi⟩ := insertSorted_split L newRow name
  rw [hi] at h
  rcases List.mem_append.mp h with h1 | h2
  · rw [he]
    exact Or.inl (List.mem_append.mpr (Or.inl h1))
  · rcases List.mem_cons.mp h2 with rfl | h3
    · exact Or.inr rfl
    · rw [he]
      exact Or.inl (List.mem_append.mpr (Or.inr h3))

/-- The first zero-`ColData` cell carries the account id. -/
theorem firstTruthyId_makeZero (name idStr : String) (nc : Nat)
    (h : idStr ≠ "") :
    firstTruthyId (makeZeroColData name idStr nc) = some idStr := by
  simp [firstTruthyId, makeZeroColData, firstId, h]

/-- The id of an injected data row is among its collected ids. -/
theorem mem_collectRow_mkDataRow (a : Account) (nc : Nat) (h : a.id ≠ "") :
    a.id ∈ collectRow (mkDataRow a nc) := by
  rw [show mkDataRow a nc =
    Row.mk (some "Data") "" [] (makeZeroColData a.name a.id nc) none []
    from rfl, collectRow_eq, firstTruthyId_makeZero a.name a.id nc h]
  simp [firstTruthyId, firstId, collectSub]

/-- The id of an injected section row is among its collected ids. -/
theorem mem_collectRow_mkSectionRow (a : Account) (nc : Nat)
    (l : List Row) (h : a.id ≠ "") :
    a.id ∈ collectRow (mkSectionRow a nc l) := by
  rw [show mkSectionRow a nc l =
    Row.mk (some "Section") "" (makeZeroColData a.name a.id nc) []
      (some l) (makeZeroColData ("Total " ++ a.name) "" nc)
    from rfl, collectRow_eq, firstTruthyId_makeZero a.name a.id nc h]
  refine List.mem_append.mpr (Or.inl (List.mem_append.mpr (Or.inr ?_)))
  simp

/-- Unfolding `Settled` at positive fuel. -/
theorem Settled_succ_iff (coa : List Account) (Q : List String) (n : Nat)
    (L : List Row) (as : List Account) :
    Settled coa Q (n + 1) L as ↔
      ∀ a ∈ as, a.id ∈ Q ∧
        ((childrenOf coa a.id).isEmpty = false →
          ∀ r, L.find? (rowMatches a.id) = some r →
            ∃ l, r.subRows = some l ∧
              Settled coa Q n l (childrenOf coa a.id)) := Iff.rfl

/-- After one merge pass the tree is `Settled` for the processed accounts:
with any present-id superset `Q` of the result's collected ids, every
account is found present and every found parent row is already expanded
(to the remaining fuel depth), so a second pass changes nothing.  The
final two components state that rows matching ids outside the processed
account list are found unchanged. -/
theorem inject_settles (coa : List Account) (nc : Nat) (P Q : List String)
    (HPQ : ∀ x, x ∈ P → x ∈ Q)
    (Hcoa1 : ∀ b ∈ coa, b.id ≠ "")
    (Hcoa2 : (coa.map Account.id).Nodup) :
    ∀ (n : Nat) (as : List Account) (L : List Row) (S : List String),
      (∀ b ∈ as, b ∈ coa) →
      ((as.map Account.id).Nodup) →
      (∀ b ∈ as, b.id ∉ S) →
      wfRows L = true →
      (∀ r ∈ L, ∀ x, x ≠ "" → rowMatches x r = true → x ∈ P ∨ x ∈ S) →
      (∀ x r, x ∉ S → L.find? (rowMatches x) = some r →
        ∀ y, y ∈ collectRow r → y ∈ P) →
      (∀ x, x ∈ collectPresentIds (injectIntoRows coa nc P n L as) →
        x ∈ Q) →
      Settled coa Q n (injectIntoRows coa nc P n L as) as ∧
      (∀ x r, x ∉ as.map Account.id →
        L.find? (rowMatches x) = some r →
        (injectIntoRows coa nc P n L as).find? (rowMatches x) = some r) ∧
      (∀ x, x ∉ as.map Account.id →
        L.find? (rowMatches x) = none →
        (injectIntoRows coa nc P n L as).find? (rowMatches x) = none) := by
  intro n
  induction n with
  | zero =>
    intro as L S _ _ _ _ _ _ _
    rw [injectIntoRows_zero]
    exact ⟨trivial, fun x r _ h => h, fun x _ h => h⟩
  | succ n ihn =>
    intro as
    induction as with
    | nil =>
      intro L S _ _ _ _ _ _ _
      rw [injectIntoRows_nil]
      refine ⟨?_, fun x r _ h => h, fun x _ h => h⟩
      rw [Settled_succ_iff]
      intro b hb
      exact absurd hb (List.not_mem_nil b)
    | cons a rest iha =>
      intro L S Has Hnodup HS HWF HCI H6 HQ
      have HaCoa : a ∈ coa := Has a (List.mem_cons_self _ _)
      have HaNe : a.id ≠ "" := Hcoa1 a HaCoa
      have HaS : a.id ∉ S := HS a (List.mem_cons_self _ _)
      have HaRest : a.id ∉ rest.map Account.id :=
        (List.nodup_cons.mp Hnodup).1
      have HnodupRest : (rest.map Account.id).Nodup :=
        (List.nodup_cons.mp Hnodup).2
      have HasRest : ∀ b ∈ rest, b ∈ coa :=
        fun b hb => Has b (List.mem_cons_of_mem a hb)
      have HSRest : ∀ b ∈ rest, b.id ∉ a.id :: S := by
        intro b hb
        simp only [List.mem_cons]
        push_neg
        refine ⟨?_, HS b (List.mem_cons_of_mem a hb)⟩
        intro he
        exact HaRest (he ▸ List.mem_map_of_mem Account.id hb)
      have HCIw : ∀ r ∈ L, ∀ x, x ≠ "" → rowMatches x r = true →
          x ∈ P ∨ x ∈ a.id :: S := by
        intro r hm x hx hmx
        rcases HCI r hm x hx hmx with h | h
        · exact Or.inl h
        · exact Or.inr (List.mem_cons_of_mem _ h)
      have H6w : ∀ x r, x ∉ a.id :: S →
          L.find? (rowMatches x) = some r →
          ∀ y, y ∈ collectRow r → y ∈ P :=
        fun x r hx hf =>
          H6 x r (fun hxs => hx (List.mem_cons_of_mem _ hxs)) hf
      rw [injectIntoRows_cons] at HQ ⊢
      have hkeys := injectStep_keys n coa nc P L a HWF
        (fun L2 as2 hw => injectIntoRows_keys n coa nc P L2 as2 hw)
      by_cases hpa : a.id ∈ P
      · by_cases hch : (childrenOf coa a.id).isEmpty
        · -- present id, childless account: the step is the identity
          have hL1 : injectStep coa nc P (injectIntoRows coa nc P n) L a
              = L := by simp [injectStep, hpa, hch]
          rw [hL1] at HQ ⊢
          obtain ⟨ih1, ih2, ih3⟩ := iha L (a.id :: S) HasRest HnodupRest
            HSRest HWF HCIw H6w HQ
          refine ⟨?_, ?_, ?_⟩
          · rw [Settled_succ_iff]
            intro b hb
            rcases List.mem_cons.mp hb with rfl | hb2
            · exact ⟨HPQ b.id hpa,
                fun hcf => by rw [hcf] at hch; simp at hch⟩
            · exact (Settled_succ_iff coa Q n _ rest).mp ih1 b hb2
          · intro x r hx hf
            have hx2 : x ≠ a.id ∧ x ∉ rest.map Account.id := by
              simp only [List.map_cons, List.mem_cons] at hx
              push_neg at hx
              exact hx
            exact ih2 x r hx2.2 hf
          · intro x hx hf
            have hx2 : x ≠ a.id ∧ x ∉ rest.map Account.id := by
              simp only [List.map_cons, List.mem_cons] at hx
              push_neg at hx
              exact hx
            exact ih3 x hx2.2 hf
        · -- present id, account with children: update the found row
          have hL1 : injectStep coa nc P (injectIntoRows coa nc P n) L a
              = updateFirstMatch (rowMatches a.id)
                (updateMatched nc a.name (injectIntoRows coa nc P n)
                  (childrenOf coa a.id)) L := by
            simp [injectStep, hpa, hch]
          rw [hL1] at HQ ⊢
          cases hfind : L.find? (rowMatches a.id) with
          | none =>
            have hL2 : updateFirstMatch (rowMatches a.id)
                (updateMatched nc a.name (injectIntoRows coa nc P n)
                  (childrenOf coa a.id)) L = L :=
              updateFirstMatch_of_none _ _ L hfind
            rw [hL2] at HQ ⊢
            obtain ⟨ih1, ih2, ih3⟩ := iha L (a.id :: S) HasRest HnodupRest
              HSRest HWF HCIw H6w HQ
            refine ⟨?_, ?_, ?_⟩
            · rw [Settled_succ_iff]
              intro b hb
              rcases List.mem_cons.mp hb with rfl | hb2
              · refine ⟨HPQ b.id hpa, ?_⟩
                intro _ r hr
                rw [ih3 b.id HaRest hfind] at hr
                exact absurd hr (by simp)
              · exact (Settled_succ_iff coa Q n _ rest).mp ih1 b hb2
            · intro x r hx hf
              have hx2 : x ≠ a.id ∧ x ∉ rest.map Account.id := by
                simp only [List.map_cons, List.mem_cons] at hx
                push_neg at hx
                exact hx
              exact ih2 x r hx2.2 hf
            · intro x hx hf
              have hx2 : x ≠ a.id ∧ x ∉ rest.map Account.id := by
                simp only [List.map_cons, List.mem_cons] at hx
                push_neg at hx
                exact hx
              exact ih3 x hx2.2 hf
          | some r0 =>
            have hm0 : rowMatches a.id r0 = true := List.find?_some hfind
            have hmem0 : r0 ∈ L := List.mem_of_find?_eq_some hfind
            have hwr0 : wfRow r0 = true := wfRows_mem L r0 HWF hmem0
            have hclean0 : ∀ y, y ∈ collectRow r0 → y ∈ P :=
              H6 a.id r0 HaS hfind
            have hsub' := updateMatched_subRows nc a.name
              (injectIntoRows coa nc P n) (childrenOf coa a.id) r0
            have hbaseWf : wfRows ((if r0.subRows.isNone
                then promoteRow r0 a.name nc else r0).subRows.getD [])
                = true := by
              rcases r0.subRows.eq_none_or_eq_some with hs0 | ⟨lsub, hs0⟩
              · rw [matched_base_none r0 a.name nc hs0]
                rfl
              · rw [matched_base_some r0 lsub a.name nc hs0]
                exact wfRow_sub_some r0 lsub hwr0 hs0
            have hbaseSub : ∀ y, y ∈ collectPresentIds
                ((if r0.subRows.isNone then promoteRow r0 a.name nc
                  else r0).subRows.getD []) → y ∈ collectRow r0 := by
              rcases r0.subRows.eq_none_or_eq_some with hs0 | ⟨lsub, hs0⟩
              · intro y hy
                rw [matched_base_none r0 a.name nc hs0] at hy
                simp [collectPresentIds] at hy
              · intro y hy
                rw [matched_base_some r0 lsub a.name nc hs0] at hy
                exact collectSub_sub_collectRow r0 lsub hs0 y hy
            have hfm : rowMatches a.id (updateMatched nc a.name
                (injectIntoRows coa nc P n) (childrenOf coa a.id) r0)
                = true := by
              rw [rowMatches_updateMatched nc a.name _ _ r0 a.id hwr0]
              exact hm0
            have hL1find : (updateFirstMatch (rowMatches a.id)
                (updateMatched nc a.name (injectIntoRows coa nc P n)
                  (childrenOf coa a.id)) L).find? (rowMatches a.id)
                = some (updateMatched nc a.name (injectIntoRows coa nc P n)
                  (childrenOf coa a.id) r0) :=
              find?_updateFirstMatch_self _ _ L r0 hfind hfm
            have HWF1 : wfRows (updateFirstMatch (rowMatches a.id)
                (updateMatched nc a.name (injectIntoRows coa nc P n)
                  (childrenOf coa a.id)) L) = true := by
              rw [hL1] at hkeys
              exact hkeys.1
            have HCI1 : ∀ r2 ∈ updateFirstMatch (rowMatches a.id)
                (updateMatched nc a.name (injectIntoRows coa nc P n)
                  (childrenOf coa a.id)) L, ∀ x, x ≠ "" →
                rowMatches x r2 = true → x ∈ P ∨ x ∈ a.id :: S := by
              intro r2 hm2 x hx hmx
              rcases mem_updateFirstMatch _ _ L r2 hm2 with h1 |
                ⟨r, hmr, _, he⟩
              · exact HCIw r2 h1 x hx hmx
              · rw [he, rowMatches_updateMatched nc a.name _ _ r x
                  (wfRows_mem L r HWF hmr)] at hmx
                exact HCIw r hmr x hx hmx
            have hfother : ∀ x, x ≠ a.id →
                (updateFirstMatch (rowMatches a.id)
                  (updateMatched nc a.name (injectIntoRows coa nc P n)
                    (childrenOf coa a.id)) L).find? (rowMatches x)
                = L.find? (rowMatches x) := by
              intro x hxne
              exact find?_updateFirstMatch_other a.id _ L x hxne HWF
                (fun r _ hw => rowMatches_updateMatched nc a.name _ _ r x hw)
            have H61 : ∀ x r, x ∉ a.id :: S →
                (updateFirstMatch (rowMatches a.id)
                  (updateMatched nc a.name (injectIntoRows coa nc P n)
                    (childrenOf coa a.id)) L).find? (rowMatches x)
                = some r → ∀ y, y ∈ collectRow r → y ∈ P := by
              intro x r hx hf
              have hxne : x ≠ a.id := fun he => hx (he ▸
                List.mem_cons_self _ _)
              rw [hfother x hxne] at hf
              exact H6 x r (fun hxs => hx (List.mem_cons_of_mem _ hxs)) hf
            obtain ⟨ih1, ih2, ih3⟩ := iha _ (a.id :: S) HasRest HnodupRest
              HSRest HWF1 HCI1 H61 HQ
            have hRfind : (injectIntoRows coa nc P (n + 1)
                (updateFirstMatch (rowMatches a.id)
                  (updateMatched nc a.name (injectIntoRows coa nc P n)
                    (childrenOf coa a.id)) L) rest).find?
                (rowMatches a.id)
                = some (updateMatched nc a.name (injectIntoRows coa nc P n)
                  (childrenOf coa a.id) r0) :=
              ih2 a.id _ HaRest hL1find
            have hmemR : updateMatched nc a.name (injectIntoRows coa nc P n)
                (childrenOf coa a.id) r0 ∈ injectIntoRows coa nc P (n + 1)
                (updateFirstMatch (rowMatches a.id)
                  (updateMatched nc a.name (injectIntoRows coa nc P n)
                    (childrenOf coa a.id)) L) rest :=
              List.mem_of_find?_eq_some hRfind
            have hsettled : Settled coa Q n (injectIntoRows coa nc P n
                ((if r0.subRows.isNone then promoteRow r0 a.name nc
                  else r0).subRows.getD []) (childrenOf coa a.id))
                (childrenOf coa a.id) := by
              refine (ihn (childrenOf coa a.id) _ [] ?_ ?_ ?_ hbaseWf ?_ ?_
                ?_).1
              · exact fun b hb => childrenOf_mem coa a.id b hb
              · exact childrenOf_nodup coa a.id Hcoa2
              · exact fun b _ => List.not_mem_nil b.id
              · intro r hm x hx hmx
                refine Or.inl (hclean0 x (hbaseSub x ?_))
                exact collectRow_mem_sub _ r x hm
                  (matches_mem_collectRow r x hx hmx)
              · intro x r _ hf y hy
                refine hclean0 y (hbaseSub y ?_)
                exact collectRow_mem_sub _ r y
                  (List.mem_of_find?_eq_some hf) hy
              · intro x hx
                refine HQ x (collectRow_mem_sub _ _ x hmemR ?_)
                exact collectSub_sub_collectRow _ _ hsub' x hx
            refine ⟨?_, ?_, ?_⟩
            · rw [Settled_succ_iff]
              intro b hb
              rcases List.mem_cons.mp hb with rfl | hb2
              · refine ⟨HPQ b.id hpa, ?_⟩
                intro _ r hr
                rw [hRfind] at hr
                injection hr with hr2
                subst hr2
                exact ⟨_, hsub', hsettled⟩
              · exact (Settled_succ_iff coa Q n _ rest).mp ih1 b hb2
            · intro x r hx hf
              have hx2 : x ≠ a.id ∧ x ∉ rest.map Account.id := by
                simp only [List.map_cons, List.mem_cons] at hx
                push_neg at hx
                exact hx
              refine ih2 x r hx2.2 ?_
              rw [hfother x hx2.1]
              exact hf
            · intro x hx hf
              have hx2 : x ≠ a.id ∧ x ∉ rest.map Account.id := by
                simp only [List.map_cons, List.mem_cons] at hx
                push_neg at hx
                exact hx
              refine ih3 x hx2.2 ?_
              rw [hfother x hx2.1]
              exact hf
      · -- absent id: a new row is inserted
        have hLnone : ∀ newRow, (∀ x, rowMatches x newRow = (a.id == x)) →
            (∀ r2 ∈ insertSorted L newRow a.name, ∀ x, x ≠ "" →
              rowMatches x r2 = true → x ∈ P ∨ x ∈ a.id :: S) := by
          intro newRow hmatch r2 hm2 x hx hmx
          rcases mem_insertSorted L newRow r2 a.name hm2 with h1 | rfl
          · exact HCIw r2 h1 x hx hmx
          · rw [hmatch x] at hmx
            exact Or.inr (List.mem_cons.mpr (Or.inl
              (beq_iff_eq.mp hmx).symm))
        have hfoth : ∀ newRow, (∀ x, rowMatches x newRow = (a.id == x)) →
            ∀ x, x ≠ a.id →
            (insertSorted L newRow a.name).find? (rowMatches x)
              = L.find? (rowMatches x) := by
          intro newRow hmatch x hxne
          refine find?_insertSorted_other L newRow a.name x ?_
          rw [hmatch x]
          exact beq_eq_false_iff_ne.mpr (fun he => hxne he.symm)
        by_cases hch : (childrenOf coa a.id).isEmpty
        · -- childless: a data row is inserted
          have hL1 : injectStep coa nc P (injectIntoRows coa nc P n) L a
              = insertSorted L (mkDataRow a nc) a.name := by
            simp [injectStep, hpa, hch]
          rw [hL1] at HQ ⊢
          have HWF1 : wfRows (insertSorted L (mkDataRow a nc) a.name)
              = true := by
            rw [hL1] at hkeys
            exact hkeys.1
          have H61 : ∀ x r, x ∉ a.id :: S →
              (insertSorted L (mkDataRow a nc) a.name).find? (rowMatches x)
              = some r → ∀ y, y ∈ collectRow r → y ∈ P := by
            intro x r hx hf
            have hxne : x ≠ a.id := fun he => hx (he ▸
              List.mem_cons_self _ _)
            rw [hfoth (mkDataRow a nc) (rowMatches_mkDataRow a nc) x hxne]
              at hf
            exact H6 x r (fun hxs => hx (List.mem_cons_of_mem _ hxs)) hf
          obtain ⟨ih1, ih2, ih3⟩ := iha _ (a.id :: S) HasRest HnodupRest
            HSRest HWF1
            (hLnone (mkDataRow a nc) (rowMatches_mkDataRow a nc)) H61 HQ
          have haQ : a.id ∈ Q := by
            refine HQ a.id ?_
            refine injectIntoRows_collect_mono (n + 1) coa nc P _ rest HWF1
              a.id ?_
            exact collectRow_mem_sub _ _ a.id
              (mem_insertSorted_self L (mkDataRow a nc) a.name)
              (mem_collectRow_mkDataRow a nc HaNe)
          refine ⟨?_, ?_, ?_⟩
          · rw [Settled_succ_iff]
            intro b hb
            rcases List.mem_cons.mp hb with rfl | hb2
            · exact ⟨haQ, fun hcf => by rw [hcf] at hch; simp at hch⟩
            · exact (Settled_succ_iff coa Q n _ rest).mp ih1 b hb2
          · intro x r hx hf
            have hx2 : x ≠ a.id ∧ x ∉ rest.map Account.id := by
              simp only [List.map_cons, List.mem_cons] at hx
              push_neg at hx
              exact hx
            refine ih2 x r hx2.2 ?_
            rw [hfoth (mkDataRow a nc) (rowMatches_mkDataRow a nc) x hx2.1]
            exact hf
          · intro x hx hf
            have hx2 : x ≠ a.id ∧ x ∉ rest.map Account.id := by
              simp only [List.map_cons, List.mem_cons] at hx
              push_neg at hx
              exact hx
            refine ih3 x hx2.2 ?_
            rw [hfoth (mkDataRow a nc) (rowMatches_mkDataRow a nc) x hx2.1]
            exact hf
        · -- with children: a section row with injected children is inserted
          have hL1 : injectStep coa nc P (injectIntoRows coa nc P n) L a
              = insertSorted L (mkSectionRow a nc (injectIntoRows coa nc P n
                [] (childrenOf coa a.id))) a.name := by
            simp [injectStep, hpa, hch]
          rw [hL1] at HQ ⊢
          have HWF1 : wfRows (insertSorted L (mkSectionRow a nc
              (injectIntoRows coa nc P n [] (childrenOf coa a.id)))
              a.name) = true := by
            rw [hL1] at hkeys
            exact hkeys.1
          have H61 : ∀ x r, x ∉ a.id :: S →
              (insertSorted L (mkSectionRow a nc (injectIntoRows coa nc P n
                [] (childrenOf coa a.id))) a.name).find? (rowMatches x)
              = some r → ∀ y, y ∈ collectRow r → y ∈ P := by
            intro x r hx hf
            have hxne : x ≠ a.id := fun he => hx (he ▸
              List.mem_cons_self _ _)
            rw [hfoth _ (rowMatches_mkSectionRow a nc _) x hxne] at hf
            exact H6 x r (fun hxs => hx (List.mem_cons_of_mem _ hxs)) hf
          obtain ⟨ih1, ih2, ih3⟩ := iha _ (a.id :: S) HasRest HnodupRest
            HSRest HWF1
            (hLnone _ (rowMatches_mkSectionRow a nc _)) H61 HQ
          have haQ : a.id ∈ Q := by
            refine HQ a.id ?_
            refine injectIntoRows_collect_mono (n + 1) coa nc P _ rest HWF1
              a.id ?_
            exact collectRow_mem_sub _ _ a.id
              (mem_insertSorted_self L _ a.name)
              (mem_collectRow_mkSectionRow a nc _ HaNe)
          have hLfnone : L.find? (rowMatches a.id) = none := by
            rw [List.find?_eq_none]
            intro r hm hmx
            rcases HCI r hm a.id HaNe hmx with h | h
            · exact hpa h
            · exact HaS h
          have hL1find : (insertSorted L (mkSectionRow a nc
              (injectIntoRows coa nc P n [] (childrenOf coa a.id)))
              a.name).find? (rowMatches a.id)
              = some (mkSectionRow a nc (injectIntoRows coa nc P n []
                (childrenOf coa a.id))) := by
            refine find?_insertSorted_self L _ a.name a.id hLfnone ?_
            rw [rowMatches_mkSectionRow]
            exact beq_self_eq_true a.id
          have hRfind := ih2 a.id _ HaRest hL1find
          have hmemR : mkSectionRow a nc (injectIntoRows coa nc P n []
              (childrenOf coa a.id)) ∈ injectIntoRows coa nc P (n + 1)
              (insertSorted L (mkSectionRow a nc (injectIntoRows coa nc P n
                [] (childrenOf coa a.id))) a.name) rest :=
            List.mem_of_find?_eq_some hRfind
          have hsettled : Settled coa Q n (injectIntoRows coa nc P n []
              (childrenOf coa a.id)) (childrenOf coa a.id) := by
            refine (ihn (childrenOf coa a.id) [] [] ?_ ?_ ?_ rfl ?_ ?_
              ?_).1
            · exact fun b hb => childrenOf_mem coa a.id b hb
            · exact childrenOf_nodup coa a.id Hcoa2
            · exact fun b _ => List.not_mem_nil b.id
            · intro r hm
              exact absurd hm (List.not_mem_nil r)
            · intro x r _ hf
              exact absurd hf (by simp)
            · intro x hx
              refine HQ x (collectRow_mem_sub _ _ x hmemR ?_)
              exact collectSub_sub_collectRow
                (mkSectionRow a nc (injectIntoRows coa nc P n []
                  (childrenOf coa a.id)))
                (injectIntoRows coa nc P n [] (childrenOf coa a.id))
                rfl x hx
          refine ⟨?_, ?_, ?_⟩
          · rw [Settled_succ_iff]
            intro b hb
            rcases List.mem_cons.mp hb with rfl | hb2
            · refine ⟨haQ, ?_⟩
              intro _ r hr
              rw [hRfind] at hr
              injection hr with hr2
              subst hr2
              exact ⟨_, rfl, hsettled⟩
            · exact (Settled_succ_iff coa Q n _ rest).mp ih1 b hb2
          · intro x r hx hf
            have hx2 : x ≠ a.id ∧ x ∉ rest.map Account.id := by
              simp only [List.map_cons, List.mem_cons] at hx
              push_neg at hx
              exact hx
            refine ih2 x r hx2.2 ?_
            rw [hfoth _ (rowMatches_mkSectionRow a nc _) x hx2.1]
            exact hf
          · intro x hx hf
            have hx2 : x ≠ a.id ∧ x ∉ rest.map Account.id := by
              simp only [List.map_cons, List.mem_cons] at hx
              push_neg at hx
              exact hx
            refine ih3 x hx2.2 ?_
            rw [hfoth _ (rowMatches_mkSectionRow a nc _) x hx2.1]
            exact hf

mutual
/-- A second section walk with a present superset of the first result's
collected ids leaves the first result unchanged (one row). -/
theorem processSectionRow_idem (coa : List Account) (P Q : List String)
    (nc fuel : Nat)
    (HPQ : ∀ x, x ∈ P → x ∈ Q)
    (Hcoa1 : ∀ b ∈ coa, b.id ≠ "")
    (Hcoa2 : (coa.map Account.id).Nodup)
    (s : Row) (hwf : wfRow s = true)
    (hsubP : ∀ x, x ∈ collectRow s → x ∈ P)
    (hQ : ∀ x, x ∈ collectRow (processSectionRow coa P nc fuel s) →
      x ∈ Q) :
    processSectionRow coa Q nc fuel (processSectionRow coa P nc fuel s)
      = processSectionRow coa P nc fuel s := by
  match s with
  | .mk t g header colData sub sm =>
    obtain ⟨hw1, hw2, hw3⟩ := wfRow_parts t g header colData sub sm hwf
    cases hg : sectionAccountTypes g with
    | some types =>
      by_cases hsa : (coa.filter
          (fun a => types.contains a.accountType)).isEmpty
      · simp only [processSectionRow, hg, Option.elim, injectMatched, hsa,
          if_true]
      · have hbwf : wfRows (sub.getD []) = true := by
          cases sub with
          | none => rfl
          | some l => simpa [wfSub_some] using hw3
        have hbase : ∀ y, y ∈ collectPresentIds (sub.getD []) →
            y ∈ collectRow (Row.mk t g header colData sub sm) := by
          cases sub with
          | none =>
            intro y hy
            simp [collectPresentIds] at hy
          | some l =>
            intro y hy
            rw [collectRow_eq]
            refine List.mem_append.mpr (Or.inr ?_)
            simp only [Option.getD_some] at hy
            simpa [collectSub] using hy
        have hQ' : ∀ x, x ∈ collectPresentIds (injectIntoRows coa nc P fuel
            (sub.getD [])
            (topLevelOf (coa.filter
              (fun a => types.contains a.accountType)))) → x ∈ Q := by
          intro x hx
          refine hQ x ?_
          simp only [processSectionRow, hg, Option.elim, injectMatched,
            hsa, if_false, Bool.false_eq_true]
          exact collectSub_sub_collectRow
            (Row.mk t g header colData
              (some (injectIntoRows coa nc P fuel (sub.getD [])
                (topLevelOf (coa.filter
                  (fun a => types.contains a.accountType))))) sm)
            (injectIntoRows coa nc P fuel (sub.getD [])
              (topLevelOf (coa.filter
                (fun a => types.contains a.accountType))))
            rfl x hx
        have hset : Settled coa Q fuel (injectIntoRows coa nc P fuel
            (sub.getD [])
            (topLevelOf (coa.filter
              (fun a => types.contains a.accountType))))
            (topLevelOf (coa.filter
              (fun a => types.contains a.accountType))) := by
          refine (inject_settles coa nc P Q HPQ Hcoa1 Hcoa2 fuel _ _ []
            ?_ ?_ ?_ hbwf ?_ ?_ hQ').1
          · intro b hb
            exact List.mem_of_mem_filter (topLevelOf_mem _ b hb)
          · refine topLevelOf_nodup _ ?_
            exact List.Nodup.sublist (List.Sublist.map Account.id
              (List.filter_sublist coa)) Hcoa2
          · exact fun b _ => List.not_mem_nil b.id
          · intro r hm x hx hmx
            refine Or.inl (hsubP x (hbase x ?_))
            exact collectRow_mem_sub _ r x hm
              (matches_mem_collectRow r x hx hmx)
          · intro x r _ hf y hy
            refine hsubP y (hbase y ?_)
            exact collectRow_mem_sub _ r y
              (List.mem_of_find?_eq_some hf) hy
        have hE := settled_inject_id coa nc Q fuel _ _ hset
        simp only [processSectionRow, hg, Option.elim, injectMatched, hsa,
          if_false, Bool.false_eq_true, Row.setSubRows, Row.subRows,
          Option.getD_some]
        rw [hE]
    | none =>
      have hrec := processSubSections_idem coa P Q nc fuel HPQ Hcoa1 Hcoa2
        sub (by simpa using hw3)
        (fun x hx => hsubP x (by
          rw [collectRow_eq]
          exact List.mem_append.mpr (Or.inr hx)))
        (fun x hx => hQ x (by
          simp only [processSectionRow, hg, Option.elim]
          rw [collectRow_eq]
          exact List.mem_append.mpr (Or.inr hx)))
      simp only [processSectionRow, hg, Option.elim]
      rw [hrec]

/-- `processSectionRow_idem` on an optional sub-row list. -/
theorem processSubSections_idem (coa : List Account) (P Q : List String)
    (nc fuel : Nat)
    (HPQ : ∀ x, x ∈ P → x ∈ Q)
    (Hcoa1 : ∀ b ∈ coa, b.id ≠ "")
    (Hcoa2 : (coa.map Account.id).Nodup)
    (sub : Option (List Row)) (hwf : wfSub sub = true)
    (hsubP : ∀ x, x ∈ collectSub sub → x ∈ P)
    (hQ : ∀ x, x ∈ collectSub (processSubSections coa P nc fuel sub) →
      x ∈ Q) :
    processSubSections coa Q nc fuel (processSubSections coa P nc fuel sub)
      = processSubSections coa P nc fuel sub := by
  match sub with
  | none => rfl
  | some l =>
    have h := processSections_idem coa P Q nc fuel HPQ Hcoa1 Hcoa2 l
      (by simpa [wfSub_some] using hwf)
      (fun x hx => hsubP x (by simpa [collectSub] using hx))
      (fun x hx => hQ x (by simpa [processSubSections, collectSub] using hx))
    simp only [processSubSections]
    rw [h]

/-- `processSectionRow_idem` over a list of rows. -/
theorem processSections_idem (coa : List Account) (P Q : List String)
    (nc fuel : Nat)
    (HPQ : ∀ x, x ∈ P → x ∈ Q)
    (Hcoa1 : ∀ b ∈ coa, b.id ≠ "")
    (Hcoa2 : (coa.map Account.id).Nodup)
    (rows : List Row) (hwf : wfRows rows = true)
    (hsubP : ∀ x, x ∈ collectPresentIds rows → x ∈ P)
    (hQ : ∀ x, x ∈ collectPresentIds (processSections coa P nc fuel rows) →
      x ∈ Q) :
    processSections coa Q nc fuel (processSections coa P nc fuel rows)
      = processSections coa P nc fuel rows := by
  match rows with
  | [] => rfl
  | r :: rest =>
    have h1 := processSectionRow_idem coa P Q nc fuel HPQ Hcoa1 Hcoa2 r
      ((Bool.and_eq_true .. |>.mp hwf).1)
      (fun x hx => hsubP x (by
        rw [show collectPresentIds (r :: rest) =
          collectRow r ++ collectPresentIds rest from rfl]
        exact List.mem_append.mpr (Or.inl hx)))
      (fun x hx => hQ x (by
        rw [show processSections coa P nc fuel (r :: rest) =
          processSectionRow coa P nc fuel r ::
            processSections coa P nc fuel rest from rfl,
          show collectPresentIds (processSectionRow coa P nc fuel r ::
            processSections coa P nc fuel rest) =
          collectRow (processSectionRow coa P nc fuel r) ++
            collectPresentIds (processSections coa P nc fuel rest) from rfl]
        exact List.mem_append.mpr (Or.inl hx)))
    have h2 := processSections_idem coa P Q nc fuel HPQ Hcoa1 Hcoa2 rest
      ((Bool.and_eq_true .. |>.mp hwf).2)
      (fun x hx => hsubP x (by
        rw [show collectPresentIds (r :: rest) =
          collectRow r ++ collectPresentIds rest from rfl]
        exact List.mem_append.mpr (Or.inr hx)))
      (fun x hx => hQ x (by
        rw [show processSections coa P nc fuel (r :: rest) =
          processSectionRow coa P nc fuel r ::
            processSections coa P nc fuel rest from rfl,
          show collectPresentIds (processSectionRow coa P nc fuel r ::
            processSections coa P nc fuel rest) =
          collectRow (processSectionRow coa P nc fuel r) ++
            collectPresentIds (processSections coa P nc fuel rest) from rfl]
        exact List.mem_append.mpr (Or.inr hx)))
    rw [show processSections coa P nc fuel (r :: rest) =
      processSectionRow coa P nc fuel r ::
        processSections coa P nc fuel rest from rfl,
      show processSections coa Q nc fuel
        (processSectionRow coa P nc fuel r ::
          processSections coa P nc fuel rest) =
      processSectionRow coa Q nc fuel (processSectionRow coa P nc fuel r) ::
        processSections coa Q nc fuel
          (processSections coa P nc fuel rest) from rfl]
    rw [h1, h2]
end

/-- C1 (amended): for a well-formed report tree (headers exclusive with
`ColData` and accompanied by a `Rows` container, per the tree invariant)
and accounts with nonempty pairwise-distinct ids, merging the account list
a second time returns the once-merged report unchanged, so the flattened
output under every row/column policy is also unchanged. -/
theorem merge_idempotent (r : Report) (accounts : List Account)
    (hwf : wfRows (r.rows.getD []) = true)
    (h1 : ∀ b ∈ accounts, b.id ≠ "")
    (h2 : (accounts.map Account.id).Nodup) :
    injectMissingAccounts (injectMissingAccounts (some r) accounts) accounts
      = injectMissingAccounts (some r) accounts ∧
    ∀ rowMax colMax,
      parseReportToRows (injectMissingAccounts
        (injectMissingAccounts (some r) accounts) accounts) rowMax colMax
      = parseReportToRows (injectMissingAccounts (some r) accounts)
          rowMax colMax := by
  have hmerge : injectMissingAccounts (injectMissingAccounts (some r)
      accounts) accounts = injectMissingAccounts (some r) accounts := by
    obtain ⟨cols, rws⟩ := r
    by_cases ha : accounts.isEmpty
    · simp [injectMissingAccounts, ha]
    · by_cases hc : cols.length == 0
      · simp [injectMissingAccounts, ha, hc]
      · rcases rws with _ | rows0
        · simp [injectMissingAccounts, ha, hc]
        · have hwf0 : wfRows rows0 = true := hwf
          have hmain := processSections_idem accounts
            (collectPresentIds rows0)
            (collectPresentIds (processSections accounts
              (collectPresentIds rows0) cols.length
              (accounts.length + 1) rows0))
            cols.length (accounts.length + 1)
            (fun x hx => processSections_collect_mono accounts
              (collectPresentIds rows0) cols.length
              (accounts.length + 1) rows0 hwf0 x hx)
            h1 h2 rows0 hwf0 (fun x hx => hx) (fun x hx => hx)
          simp [injectMissingAccounts, ha, hc, hmain]
  exact ⟨hmerge, fun rowMax colMax => by rw [hmerge]⟩

/-- Witness for `merge_idempotent` at a concrete one-section report and a
single orphan Income account with a nonempty id. -/
theorem merge_idempotent_witness :
    injectMissingAccounts (injectMissingAccounts
      (some ⟨["c1"], some [.mk (some "Section") "Income"
        [⟨some "Income", none⟩] [] (some []) []]⟩)
      [⟨"9", "Orphan", "Income", false, none⟩])
      [⟨"9", "Orphan", "Income", false, none⟩]
      = injectMissingAccounts
        (some ⟨["c1"], some [.mk (some "Section") "Income"
          [⟨some "Income", none⟩] [] (some []) []]⟩)
        [⟨"9", "Orphan", "Income", false, none⟩] :=
  (merge_idempotent
    ⟨["c1"], some [.mk (some "Section") "Income"
      [⟨some "Income", none⟩] [] (some []) []]⟩
    [⟨"9", "Orphan", "Income", false, none⟩]
    (by decide) (by decide) (by decide)).1
